import Mathlib

/-!
Verification of the pathways-typing core: a shallow embedding, in Lean, of the
CART rule parser (cart.py), the typing-tree builder and structural operations
(tree.py), and the rewrite passes (options.py), together with theorems about
the behaviour of those functions.

Modelling conventions:
- Python strings are Lean `String`; single-character operations such as
  `str.replace(".", "_")` and `str.lower()` are implemented over `String.data`
  so that they reduce by evaluation.
- Python numbers appearing in rules are `Int` (the rpart export carries
  integral cutpoints and codes in all places relevant here).
- Fallible Python code (KeyError, raise, assert) is embedded with
  `Except String`.
- `random`-based uid generation is embedded as a deterministic supply: the
  caller threads a counter and `generate_uid prefix k` is injective in `k`.
- Python dicts keyed by int are association lists `List (Nat × _)` in
  insertion order; dicts keyed by strings are association lists
  `List (String × _)`.
- Mutable `list` objects shared between questions (aliasing) only matter for
  `enforce_relevance`; that pass is embedded with an explicit pointer/heap
  state mirroring the object graph.
-/

namespace Pathways

/-! ## Shared string helpers -/

/-- Opening brace as a string (written via escape for the xpath templates). -/
def lbrace : String := "\x7b"

/-- Closing brace as a string. -/
def rbrace : String := "\x7d"

/-- Single-quote character as a string. -/
def squote : String := String.singleton (Char.ofNat 39)

/-- Embedding of `s.replace(".", "_").lower()` used to normalize rpart
variable names into xlsform identifiers (tree.py, line 311 and 537). -/
def normalizeName (s : String) : String :=
  String.mk ((s.data.map (fun c => if c = '.' then '_' else c)).map Char.toLower)

/-! ## cart.py : rule parser -/

/-- Value carried by a CART split rule: numeric cutpoint for continuous
variables, list of categorical values for categorical ones
(cart.py `CARTRule.value : list[str] | int | float`). -/
inductive RuleValue where
  | num (x : Int)
  | cats (l : List String)
deriving DecidableEq

/-- Embedding of cart.py `CARTRule`. -/
structure CARTRule where
  var : String
  operator : String
  value : RuleValue
  not_present : Option (List String) := none
deriving DecidableEq

/-- Embedding of cart.py `CARTNode` (fields used by the claims; the
counts/probability vectors are not needed by any claim settled here). -/
structure CARTNode where
  index : Nat
  cluster : String
  var : String
  left : Option CARTRule := none
  right : Option CARTRule := none
  strata : Option String := none
deriving DecidableEq

/-- Embedding of `CARTNode.is_leaf`. -/
def CARTNode.is_leaf (n : CARTNode) : Bool := n.var = "<leaf>"

/-- Embedding of cart.py `get_operator`. -/
def get_operator (ncat : Int) : String :=
  if ncat = -1 then "<"
  else if ncat = 1 then ">"
  else "in"

/-- Loop body of cart.py `get_categorical_values`: iterate over the codes of
one csplit row with their positions, dispatching each level to left (code 1),
not-present (code 2, guarded by `len(xlevels) > i`), or right (code 3).
Codes outside 1/2/3 are dropped, exactly as in the source loop. -/
def get_categorical_values_loop (xlevels : List String) :
    List Int → Nat → List String × List String × List String
  | [], _ => ([], [], [])
  | code :: rest, i =>
    let (l, r, np) := get_categorical_values_loop xlevels rest (i + 1)
    if code = 1 then (xlevels.getD i "" :: l, r, np)
    else if code = 2 then
      (l, r, if i < xlevels.length then xlevels.getD i "" :: np else np)
    else if code = 3 then (l, xlevels.getD i "" :: r, np)
    else (l, r, np)

/-- Embedding of cart.py `get_categorical_values`. The row is
`csplit[csplit_id - 1]`; `csplit_id` is the 1-based row index from the node
record (negative or out-of-range ids are outside the rpart domain). -/
def get_categorical_values (csplit_id : Int) (xlevels : List String)
    (csplit : List (List Int)) : List String × List String × List String :=
  get_categorical_values_loop xlevels (csplit.getD (csplit_id - 1).toNat []) 0

/-- Embedding of cart.py `get_rules`. -/
def get_rules (var : String) (ncat : Int) (index : Int) (xlevels : List String)
    (csplit : List (List Int)) : CARTRule × CARTRule :=
  let operator := get_operator ncat
  if operator = "in" then
    let (left, right, not_present) := get_categorical_values index xlevels csplit
    (⟨var, operator, .cats left, some not_present⟩,
     ⟨var, operator, .cats right, some not_present⟩)
  else
    let cutpoint := index
    let left_rule : CARTRule := ⟨var, ">", .num cutpoint, none⟩
    let right_rule : CARTRule := ⟨var, "<", .num cutpoint, none⟩
    if ncat = -1 then (right_rule, left_rule) else (left_rule, right_rule)

/-- Positions (from absolute start index `i`) of a csplit row holding a given
code; used to characterise the output of `get_categorical_values_loop`. -/
def codeIndicesFrom : List Int → Nat → Int → List Nat
  | [], _, _ => []
  | x :: r, i, c =>
    if x = c then i :: codeIndicesFrom r (i + 1) c else codeIndicesFrom r (i + 1) c

/-- Positions of code 2 that are below the number of levels (the source guards
the not-present append with `len(xlevels) > i`). -/
def notPresentIndices : List Int → Nat → Nat → List Nat
  | [], _, _ => []
  | x :: r, i, b =>
    if x = 2 ∧ i < b then i :: notPresentIndices r (i + 1) b
    else notPresentIndices r (i + 1) b

/-! ## tree.py : build_tree -/

/-- Boolean error test for `Except` results. -/
def isError {α : Type} : Except String α → Bool
  | .error _ => true
  | .ok _ => false

/-- Association-list lookup (first binding wins), embedding Python dict
access for int-keyed dicts. -/
def alGet {α : Type} : List (Nat × α) → Nat → Option α
  | [], _ => none
  | (k, v) :: r, i => if k = i then some v else alGet r i

/-- Association-list update of an existing binding. -/
def alSet {α : Type} : List (Nat × α) → Nat → α → List (Nat × α)
  | [], _, _ => []
  | (k, v) :: r, i, w => if k = i then (k, w) :: r else (k, v) :: alSet r i w

/-- Keys of an association list, in insertion order. -/
def alKeys {α : Type} (m : List (Nat × α)) : List Nat := m.map (fun p => p.1)

/-- A `Node` of the typing tree as produced by tree.py `build_tree`, with the
parent/children object references replaced by binary indices into the node
dict. -/
structure BNode where
  name : String
  cart : CARTNode
  cart_rule : Option CARTRule := none
  parentIdx : Option Nat := none
  childrenIdx : List Nat := []
deriving DecidableEq

/-- First loop of `build_tree`: create one `Node` per CART node, naming
leaves `segment` and split nodes by the normalized split variable, and stamp
the strata on the CART data. -/
def mkBNode (c : CARTNode) (strata : String) : BNode :=
  { name := if c.is_leaf then "segment" else normalizeName c.var,
    cart := { c with strata := some strata } }

/-- Second loop body of `build_tree`: for a non-root index, look up the
parent at `i / 2` (KeyError if absent), append the node to the parent
children and take the parent left rule when `i` is even, right rule when odd. -/
def linkStep (m : List (Nat × BNode)) (i : Nat) : Except String (List (Nat × BNode)) :=
  if i = 1 then .ok m
  else
    match alGet m (i / 2) with
    | none => .error ("KeyError: " ++ toString (i / 2))
    | some p =>
      match alGet m i with
      | none => .error ("KeyError: " ++ toString i)
      | some nd =>
        let rule := if i % 2 = 0 then p.cart.left else p.cart.right
        let m1 := alSet m (i / 2) { p with childrenIdx := p.childrenIdx ++ [i] }
        .ok (alSet m1 i { nd with parentIdx := some (i / 2), cart_rule := rule })

/-- Second loop of `build_tree`, iterating `linkStep` over the node indices
in dict insertion order. -/
def linkFold (ks : List Nat) (m : List (Nat × BNode)) :
    Except String (List (Nat × BNode)) :=
  ks.foldlM (fun acc i => linkStep acc i) m

/-- Embedding of tree.py `build_tree`: build the node dict, link every
non-root node to its parent at the halved index, and return (the dict rooted
at) index 1, failing like the Python `nodes[1]` if index 1 is absent. -/
def build_tree (cart_nodes : List (Nat × CARTNode)) (strata : String) :
    Except String (List (Nat × BNode)) := do
  let m0 := cart_nodes.map (fun p => (p.1, mkBNode p.2 strata))
  let m ← linkFold (cart_nodes.map (fun p => p.1)) m0
  match alGet m 1 with
  | some _ => .ok m
  | none => .error "KeyError: 1"

/-! ## tree.py : questions, nodes, merge, xpath helpers -/

/-- Embedding of tree.py `Choice`. -/
structure Choice where
  list_name : String
  name : String
  label : List (String × String) := []
  cart_value : Option String := none
deriving DecidableEq

/-- Cell of a serialized xlsform row: string, boolean or Python `None`. -/
inductive Cell where
  | str (s : String)
  | bool (b : Bool)
  | null
deriving DecidableEq

/-- Embedding of tree.py `Question` (the dataclass defaults mirror the
source; `type` is optional because the dataclass admits `None`). -/
structure Question where
  name : String
  type : Option String
  label : List (String × String) := []
  hint : List (String × String) := []
  required : Bool := false
  required_message : List (String × String) := []
  conditions : Option (List String) := none
  calculation : Option String := none
  choices : Option (List Choice) := none
  choice_list : Option String := none
  choice_filter : Option String := none
  choices_from_parent : Option (List Choice) := none
  trigger : Option String := none
  default : Option String := none
deriving DecidableEq

/-- Embedding of the `Question.relevant` property: `None` when the conditions
list is falsy (absent or empty), otherwise each condition wrapped in
parentheses and joined with a logical and. -/
def Question.relevant (q : Question) : Option String :=
  match q.conditions with
  | none => none
  | some [] => none
  | some l => some (String.intercalate " and " (l.map (fun c => "(" ++ c ++ ")")))

/-- Python `str(x)` on an optional string (None prints as `None`). -/
def optStr : Option String → String
  | some s => s
  | none => "None"

/-- An optional string as an xlsform cell. -/
def cellOfOpt : Option String → Cell
  | some s => .str s
  | none => .null

/-- Structural prefix test on strings (the library `startsWith` does not
reduce by evaluation). -/
def strStarts (pre s : String) : Bool := pre.data.isPrefixOf s.data

/-- Embedding of `Question.to_xlsform`: the survey row as an ordered list of
column/cell pairs. Accessing `self.type.startswith` with a `None` type is an
AttributeError in the source, embedded as an error. -/
def Question.to_xlsform (q : Question) : Except String (List (String × Cell)) :=
  match q.type with
  | none => .error "AttributeError: type is None"
  | some ty =>
    let typeCell : Cell :=
      if strStarts "select" ty then .str (ty ++ " " ++ optStr q.choice_list)
      else .str ty
    .ok ([("type", typeCell), ("name", Cell.str q.name)]
      ++ q.label.map (fun p => (p.1, Cell.str p.2))
      ++ q.hint.map (fun p => (p.1, Cell.str p.2))
      ++ [("calculation", cellOfOpt q.calculation),
          ("relevant", cellOfOpt q.relevant),
          ("required", Cell.bool q.required),
          ("choice_filter", cellOfOpt q.choice_filter),
          ("trigger", cellOfOpt q.trigger),
          ("default", cellOfOpt q.default)]
      ++ q.required_message.map (fun p => (p.1, Cell.str p.2)))

/-- Embedding of tree.py `generate_uid`: the random six-character suffix is
modelled by a deterministic supply index, keeping the documented shape
`<name lowered, dots replaced>_<suffix>`. -/
def generate_uid (pre : String) (k : Nat) : String :=
  normalizeName pre ++ "_u" ++ toString k

/-- A node of the typing tree (tree.py `Node`): name, uid, CART data, the
rule on the edge from the parent, the attached question, and the ordered
children. The parent back-reference is implicit in the tree structure. -/
inductive TNode where
  | mk (name uid : String) (cart : Option CARTNode) (cart_rule : Option CARTRule)
      (question : Option Question) (children : List TNode)

def TNode.name : TNode → String
  | .mk n _ _ _ _ _ => n

def TNode.uid : TNode → String
  | .mk _ u _ _ _ _ => u

def TNode.cart : TNode → Option CARTNode
  | .mk _ _ c _ _ _ => c

def TNode.cart_rule : TNode → Option CARTRule
  | .mk _ _ _ r _ _ => r

def TNode.question : TNode → Option Question
  | .mk _ _ _ _ q _ => q

def TNode.children : TNode → List TNode
  | .mk _ _ _ _ _ ch => ch

/-- Replace the edge rule at the root of a tree (used by `merge_trees`, which
assigns `children[i].cart_rule` after deep-copying). -/
def TNode.withRule : TNode → Option CARTRule → TNode
  | .mk n u c _ q ch, r => .mk n u c r q ch

/-- Embedding of tree.py `merge_trees`: a synthetic root splitting on the
`location` variable with `in` rules over the disjoint value sets `rural` and
`urban`; both inputs are adopted as children (deep copies in the source; the
pure embedding keeps the values) and receive the respective edge rules. -/
def merge_trees (root_rural root_urban : TNode) : TNode :=
  let left_rule : CARTRule := ⟨"location", "in", .cats ["rural"], none⟩
  let right_rule : CARTRule := ⟨"location", "in", .cats ["urban"], none⟩
  let cart : CARTNode :=
    { index := 0, cluster := "0", var := "location",
      left := some left_rule, right := some right_rule }
  TNode.mk "location" (generate_uid "location" 0) (some cart) none none
    [root_rural.withRule (some left_rule), root_urban.withRule (some right_rule)]

/-- Example question with an empty conditions list. -/
def exQempty : Question :=
  { name := "q", type := some "integer", conditions := some [] }

/-- Example question with two conditions. -/
def exQtwo : Question :=
  { name := "q", type := some "integer", conditions := some ["a", "b"] }

/-! ## tree.py : Node.remove on the mutable object graph -/

/-- The mutable parent/children pointer structure of tree.py `Node`,
as functions from node ids. -/
structure PtrTree where
  parent : Nat → Option Nat
  children : Nat → List Nat

/-- Pointwise update of the parent map. -/
def updParent (f : Nat → Option Nat) (i : Nat) (v : Option Nat) : Nat → Option Nat :=
  fun j => if j = i then v else f j

/-- Pointwise update of the children map. -/
def updChildren (f : Nat → List Nat) (i : Nat) (v : List Nat) : Nat → List Nat :=
  fun j => if j = i then v else f j

/-- Embedding of `Node.remove`, statement for statement: remove the node from
its parent children list, point each of the node children at the former
parent, then clear the node parent and children attributes. (The source
never appends the children to the former parent children list.) -/
def removeNode (s : PtrTree) (n : Nat) : PtrTree :=
  let s1 : PtrTree :=
    match s.parent n with
    | some p => { s with children := updChildren s.children p ((s.children p).erase n) }
    | none => s
  let s2
 : PtrTree :=
    (s.children n).foldl
      (fun acc c => { acc with parent := updParent acc.parent c (s.parent n) }) s1
  { s2 with
    parent := updParent s2.parent n none
    children := updChildren s2.children n [] }

/-- Nodes reachable from `x` by following children lists, with fuel. -/
def reachable (s : PtrTree) : Nat → Nat → List Nat
  | 0, x => [x]
  | fuel + 1, x => x :: (s.children x).flatMap (fun c => reachable s fuel c)

/-- Concrete three-node chain 0 → 1 → 2 for exercising `remove`. -/
def exC6store : PtrTree :=
  { parent := fun j => if j = 1 then some 0 else if j = 2 then some 1 else none,
    children := fun j => if j = 0 then [1] else if j = 1 then [2] else [] }

/-! ## tree.py : xpath variable extraction and substitution -/

/-- Opening brace character. -/
def lbraceC : Char := Char.ofNat 123

/-- Closing brace character. -/
def rbraceC : Char := Char.ofNat 125

/-- Scan of `re.findall(r"\\x7b(.*?)\\x7d", expression)` as a character state
machine: outside a group, an opening brace starts a capture; inside a group,
the first closing brace emits the captured name (lazy matching); an
unterminated capture at the end of input yields no further matches. -/
def findBracedAux : List Char → Option (List Char) → List String
  | [], _ => []
  | c :: rest, none =>
    if c = lbraceC then findBracedAux rest (some []) else findBracedAux rest none
  | c :: rest, some acc =>
    if c = rbraceC then String.mk acc :: findBracedAux rest none
    else findBracedAux rest (some (acc ++ [c]))

/-- Embedding of tree.py `extract_xpath_variables`: `None` when there is no
match, otherwise the matches deduplicated (the source builds `list(set(...))`,
whose arbitrary iteration order is modelled by order-preserving
deduplication). -/
def extract_xpath_variables (expression : String) : Option (List String) :=
  let ms := findBracedAux expression.data none
  if ms = [] then none else some ms.dedup

/-- String-keyed association lookup (Python dict access). -/
def alGetS {α : Type} : List (String × α) → String → Option α
  | [], _ => none
  | (k, v) :: r, i => if k = i then some v else alGetS r i

/-- Python `str.format(**mapping)` restricted to plain single-level brace
fields, as used on the xpath condition templates: literal text is copied and
each braced field is replaced by its mapping entry. -/
def pyFormatAux (m : List (String × String)) : List Char → Option (List Char) → List Char
  | [], _ => []
  | c :: rest, none =>
    if c = lbraceC then pyFormatAux m rest (some [])
    else c :: pyFormatAux m rest none
  | c :: rest, some acc =>
    if c = rbraceC then
      (match alGetS m (String.mk acc) with
       | some v => v.data
       | none => []) ++ pyFormatAux m rest none
    else pyFormatAux m rest (some (acc ++ [c]))

/-- First ancestor (immediate parent upward) whose name matches, returning
its uid: the inner loop of `update_xpath_variables` over `node.parents`. -/
def resolveUid (parents : List (String × String)) (v : String) : Option String :=
  match parents with
  | [] => none
  | (n, u) :: rest => if n = v then some u else resolveUid rest v

/-- Outer loop of `update_xpath_variables`: resolve every extracted variable
to a braced uid, raising when a variable has no matching ancestor (a falsy
uid is treated as unresolved, as in the source `if not uid`). -/
def buildMapping (parents : List (String × String)) :
    List String → Except String (List (String × String))
  | [] => .ok []
  | v :: vs =>
    match resolveUid parents v with
    | some u =>
      if u = "" then
        .error ("Variable " ++ squote ++ v ++ squote ++ " not found in parent nodes.")
      else
        (buildMapping parents vs).map (fun rest => (v, lbrace ++ u ++ rbrace) :: rest)
    | none =>
      .error ("Variable " ++ squote ++ v ++ squote ++ " not found in parent nodes.")

/-- Embedding of tree.py `update_xpath_variables`. The ancestors of the node
are supplied as (name, uid) pairs from the immediate parent to the root. -/
def update_xpath_variables (parents : List (String × String)) (expression : String) :
    Except String String :=
  match extract_xpath_variables expression with
  | none => .ok expression
  | some vars =>
    (buildMapping parents vars).map
      (fun m => String.mk (pyFormatAux m expression.data none))


/-! ## options.py : enforce_relevance -/

/-- A tree node as consumed by `enforce_relevance`: a node id, the attached
question name and type, and the children. The conditions lists live in a
separate heap (see `RelSt`) because the source shares list objects between
questions (`node.question.conditions = node.parent.question.conditions`) and
later mutates them in place. -/
inductive RTree where
  | mk (id : Nat) (qname qtype : String) (kids : List RTree)

/-- Preorder entry for one node: its id, its immediate parent (id, question
name, question type) and the ids of all ancestors, immediate parent first. -/
structure RInfo where
  id : Nat
  parent : Option (Nat × String × String)
  ancestors : List Nat
deriving DecidableEq

mutual

/-- Node ids of a tree in preorder. -/
def idsOf : RTree → List Nat
  | .mk i _ _ kids => i :: idsOfL kids

def idsOfL : List RTree → List Nat
  | [] => []
  | t :: ts => idsOf t ++ idsOfL ts

end

mutual

/-- Preorder traversal collecting the per-node information used by the two
loops of `enforce_relevance`; `anc` holds the ancestors, nearest first. -/
def rinfos (anc : List (Nat × String × String)) : RTree → List RInfo
  | .mk i qn qt kids =>
    { id := i, parent := anc.head?, ancestors := anc.map (fun p => p.1) }
      :: rinfosL ((i, qn, qt) :: anc) kids

def rinfosL (anc : List (Nat × String × String)) : List RTree → List RInfo
  | [] => []
  | t :: ts => rinfos anc t ++ rinfosL anc ts

end

/-- The mutable state of `enforce_relevance`: each node id points at a heap
cell holding its conditions list object; `next` is the next fresh cell
(allocation models `list(set(...))` creating a new list object). -/
structure RelSt where
  ptr : Nat → Nat
  heap : Nat → List String
  next : Nat

/-- Pointwise update of a cell pointer map. -/
def updNat (f : Nat → Nat) (i v : Nat) : Nat → Nat :=
  fun j => if j = i then v else f j

/-- Pointwise update of the conditions heap. -/
def updHeap (f : Nat → List String) (i : Nat) (v : List String) : Nat → List String :=
  fun j => if j = i then v else f j

/-- The non-emptiness conjunct appended for the parent question
(`${parent} != ''`). -/
def neCheck (pname : String) : String :=
  "$" ++ lbrace ++ pname ++ rbrace ++ " != " ++ squote ++ squote

/-- First loop of `enforce_relevance`: a non-root node whose conditions list
is falsy starts sharing the parent conditions object (pointer assignment, as
in the source). -/
def relLoop1 : List RInfo → RelSt → RelSt
  | [], st => st
  | info :: rest, st =>
    match info.parent with
    | none => relLoop1 rest st
    | some (pid, _, _) =>
      if st.heap (st.ptr info.id) = [] then
        relLoop1 rest { st with ptr := updNat st.ptr info.id (st.ptr pid) }
      else relLoop1 rest st

/-- Inner loop over `node.parents`: ancestors whose relevance is truthy
(non-empty conditions) have their current conditions list appended, in place,
to the cell of the node being processed. -/
def relExtendHeap (ptr : Nat → Nat) (cell : Nat) :
    List Nat → (Nat → List String) → (Nat → List String)
  | [], h => h
  | a :: rest, h =>
    if h (ptr a) ≠ [] then
      relExtendHeap ptr cell rest (updHeap h cell (h cell ++ h (ptr a)))
    else relExtendHeap ptr cell rest h

/-- Second loop body of `enforce_relevance` for one non-root node: append the
parent non-emptiness check unless the parent is a multi-select, append every
ancestor conditions list, then deduplicate into a fresh list object
(`list(set(...))`, modelled as an order-stable dedup into a fresh cell). -/
def relStep (st : RelSt) (info : RInfo) : RelSt :=
  match info.parent with
  | none => st
  | some (_, pname, ptype) =>
    let cell := st.ptr info.id
    let h1 := if ptype ≠ "select_multiple"
      then updHeap st.heap cell (st.heap cell ++ [neCheck pname])
      else st.heap
    let h2 := relExtendHeap st.ptr cell info.ancestors h1
    { ptr := updNat st.ptr info.id st.next,
      heap := updHeap h2 st.next (h2 cell).dedup,
      next := st.next + 1 }

/-- Second loop of `enforce_relevance` over the preorder entries. -/
def relLoop2 : List RInfo → RelSt → RelSt
  | [], st => st
  | info :: rest, st => relLoop2 rest (relStep st info)

/-- Embedding of options.py `enforce_relevance`: run both loops over the
preorder of the (deep-copied) tree, starting from the object graph where
node `i` owns cell `i` holding its initial conditions, with fresh cells
allocated from `next0` up. -/
def enforce_relevance (t : RTree) (conds0 : Nat → List String) (next0 : Nat) : RelSt :=
  let inf := rinfos [] t
  relLoop2 inf (relLoop1 inf { ptr := fun i => i, heap := conds0, next := next0 })

/-- Conditions attached to node `i` in a state. -/
def relConds (st : RelSt) (i : Nat) : List String := st.heap (st.ptr i)


/-! ## options.py : exit_deadends -/

/-- One row of a configured choice list (spreadsheet row: choice list name,
choice name, labels, raw CART target value). -/
structure CCRow where
  choice_list : String
  name : String
  labels : List (String × String) := []
  target_value : Option String := none
deriving DecidableEq

/-- Substring replacement (`str.replace`), used to turn `segment_note::lang`
keys into `label::lang` keys. -/
def replaceChars (pat rep : List Char) : List Char → List Char
  | [] => []
  | c :: rest =>
    if h : pat.isPrefixOf (c :: rest) ∧ pat ≠ [] then
      rep ++ replaceChars pat rep ((c :: rest).drop pat.length)
    else c :: replaceChars pat rep rest
termination_by l => l.length
decreasing_by
  · simp only [List.length_drop, List.length_cons]
    have : 0 < pat.length := List.length_pos.mpr h.2
    omega
  · simp

/-- Python `s.replace(pat, rep)`. -/
def pyReplace (s pat rep : String) : String :=
  String.mk (replaceChars pat.data rep.data s.data)

/-- Python `label.format(segment=seg)` on note templates whose only
replacement field is `segment`. -/
def formatSegment (s seg : String) : String :=
  String.mk (pyFormatAux [("segment", seg)] s.data none)

/-- Strata key used for the segment rename table: the node strata if truthy,
else `any`. -/
def strataKey : Option String → String
  | some s => if s = "" then "any" else s
  | none => "any"

/-- Lookup of the per-strata rename mapping: `segments_config.get(strata) if
segments_config else None`. -/
def segLookup (sc : List (String × List (String × String))) (strata : String) :
    Option (List (String × String)) :=
  if sc = [] then none else alGetS sc strata

/-- Rename a cluster through the segment rename table when the mapping is
truthy and holds the cluster (`if mapping and segment in mapping`). -/
def renameSegment (sc : List (String × List (String × String)))
    (strata : Option String) (cluster : String) : String :=
  match segLookup sc (strataKey strata) with
  | none => cluster
  | some m =>
    if m = [] then cluster
    else
      match alGetS m cluster with
      | some v => v
      | none => cluster

/-- Embedding of tree.py `xpath_condition` for string values (the only case
exercised by the dead-end pass): `${var} op \x27value\x27`. -/
def xpath_condition_str (var op value : String) : String :=
  "$" ++ lbrace ++ var ++ rbrace ++ " " ++ op ++ " " ++ squote ++ value ++ squote

/-- The nested loop of `exit_deadends` mapping excluded CART values to
configured choice names (`str(choice["target_value"]) == str(cart_value)`). -/
def deadendChoicesXlsform (rows : List CCRow) (vals : List String) : List String :=
  vals.flatMap (fun cv => (rows.filter (fun ch => optStr ch.target_value = cv)).map
    (fun ch => ch.name))

/-- The guarding relevance expression over the dead-end choice names: a
disjunction of equality conditions when there are several, a single equality
otherwise. -/
def deadendExpr (var : String) (names : List String) : String :=
  if names.length > 1 then
    String.intercalate " or " (names.map (fun v => xpath_condition_str var "=" v))
  else xpath_condition_str var "=" (names.headD "")

/-- A node qualifies for dead-end handling when it has an edge rule and its
own CART split carries a non-empty not-present set (the source guards
`if not node.cart_rule: continue` and `if node.cart and node.cart.left and
node.cart.left.not_present`). -/
def edDeadendData (t : TNode) : Option (CARTNode × List String) :=
  match t.cart_rule, t.cart with
  | some _, some ct =>
    match ct.left with
    | some lr =>
      match lr.not_present with
      | some np => if np ≠ [] then some (ct, np) else none
      | none => none
    | none => none
  | _, _ => none

/-- The default low-confidence note appended in `exit_deadends` when the
settings hold no configured low-confidence label for the language. -/
def lowConfDefault : String :=
  "\n[Low segment assignment confidence]\nWe recommend stopping this survey and starting with a new respondent."

/-- The note label computed by `exit_deadends` for a dead-end segment note:
`segment_note` settings with keys renamed and the segment formatted in,
each suffixed with the configured (or default) low-confidence note. -/
def deadendNoteLabel (stc : List (String × String)) (segment : String) :
    List (String × String) :=
  let note_label := (stc.filter (fun p => strStarts "segment_note" p.1)).map
    (fun p => (pyReplace p.1 "segment_note" "label", formatSegment p.2 segment))
  let low_conf := (stc.filter (fun p => strStarts "low_confidence_note" p.1)).map
    (fun p => (pyReplace p.1 "low_confidence_note" "label", pyReplace p.2 "\\n" "\n"))
  note_label.map (fun p => (p.1,
    p.2 ++ (match alGetS low_conf p.1 with
      | some w => w
      | none => lowConfDefault)))

mutual

/-- Embedding of options.py `exit_deadends` as a preorder transformation:
at every node holding an edge rule and a categorical split with a non-empty
not-present set, build the synthetic segment leaf (with its note child) and
append it to the children; nodes added by the pass carry no edge rule and are
skipped when reached, exactly as in the source traversal. `anc` carries the
(name, uid) ancestor chain for xpath resolution, `k` the uid supply. -/
def edGo (ccfg : List (String × List CCRow)) (sc : List (String × List (String × String)))
    (stc : List (String × String)) :
    List (String × String) → Nat → TNode → Except String (TNode × Nat)
  | anc, k, TNode.mk name uid cart rule q kids =>
    match edDeadendData (TNode.mk name uid cart rule q kids) with
    | some (ct, np) =>
      match q with
      | none => .error "AttributeError: question is None"
      | some qu =>
        match qu.conditions with
        | none => .error "AttributeError: conditions is None"
        | some conds =>
          match alGetS ccfg name with
          | none => .error ("KeyError: " ++ name)
          | some rows =>
            let xls := deadendChoicesXlsform rows np
            if xls.length = np.length then
              let segment := renameSegment sc ct.strata ct.cluster
              let leafUid := generate_uid "segment" k
              let noteUid := generate_uid "segment_note" (k + 1)
              match update_xpath_variables ((name, uid) :: anc) (deadendExpr name xls) with
              | .error e => .error e
              | .ok expr =>
                let label := deadendNoteLabel stc segment
                let newConds := conds ++ [expr]
                let noteNode := TNode.mk "segment_note" noteUid none none
                  (some { name := noteUid, type := some "note", label := label,
                          conditions := some newConds }) []
                let leafNode := TNode.mk "segment" leafUid none none
                  (some { name := leafUid, type := some "calculate", required := true,
                          calculation := some (squote ++ segment ++ squote),
                          conditions := some newConds }) [noteNode]
                match edGoList ccfg sc stc ((name, uid) :: anc) (k + 2) kids with
                | .error e => .error e
                | .ok (kids2, k2) =>
                  .ok (TNode.mk name uid cart rule q (kids2 ++ [leafNode]), k2)
            else .error "AssertionError: Some deadend choices were not found in choices_config"
    | none =>
      match edGoList ccfg sc stc ((name, uid) :: anc) k kids with
      | .error e => .error e
      | .ok (kids2, k2) => .ok (TNode.mk name uid cart rule q kids2, k2)

def edGoList (ccfg : List (String × List CCRow)) (sc : List (String × List (String × String)))
    (stc : List (String × String)) :
    List (String × String) → Nat → List TNode → Except String (List TNode × Nat)
  | _, k, [] => .ok ([], k)
  | anc, k, t :: ts =>
    match edGo ccfg sc stc anc k t with
    | .error e => .error e
    | .ok (t2, k1) =>
      match edGoList ccfg sc stc anc k1 ts with
      | .error e => .error e
      | .ok (ts2, k2) => .ok (t2 :: ts2, k2)

end

/-- Embedding of options.py `exit_deadends` (the deep copy of the source is
the pure result; `k0` seeds the uid supply standing for the random suffixes). -/
def exit_deadends (ccfg : List (String × List CCRow))
    (sc : List (String × List (String × String))) (stc : List (String × String))
    (root : TNode) (k0 : Nat) : Except String TNode :=
  (edGo ccfg sc stc [] k0 root).map (fun p => p.1)

/-- Subtree lookup along a path of child indices. -/
def getAt : TNode → List Nat → Option TNode
  | t, [] => some t
  | t, i :: rest =>
    match t.children[i]? with
    | some c => getAt c rest
    | none => none


/-- CART data for the C7 examples: a categorical split on `q1` where value
`b` is not present. -/
def exC7cart : CARTNode :=
  { index := 2, cluster := "X", var := "q1",
    left := some ⟨"q1", "in", .cats ["a"], some ["b"]⟩,
    right := some ⟨"q1", "in", .cats ["c"], some ["b"]⟩ }

/-- A root-only tree carrying the dead-end split but (as every root) no edge
rule from a parent. -/
def exC7root : TNode :=
  TNode.mk "q1" "q1_u0" (some exC7cart) none
    (some { name := "q1_u0", type := some "select_one", conditions := some [] }) []

/-- Choice configuration mapping the CART value `b` to choice `bchoice`. -/
def exC7ccfg : List (String × List CCRow) :=
  [("q1", [{ choice_list := "q1", name := "bchoice", target_value := some "b" }])]

/-- The dead-end node of the C7 witness tree: carries an edge rule and the
dead-end split. -/
def exC7n : TNode :=
  TNode.mk "q1" "q1_u0" (some exC7cart)
    (some ⟨"r", "in", .cats ["x"], none⟩)
    (some { name := "q1_u0", type := some "select_one", conditions := some ["c0"] }) []

/-- Witness tree for C7: a root question with the dead-end node as child. -/
def exC7tree : TNode :=
  TNode.mk "r" "r_u0" none none
    (some { name := "r_u0", type := some "select_one", conditions := some [] })
    [exC7n]


/-! ## options.py : apply_options and apply_hide_option -/

/-- One option directive from the options sheet (`option["option"]` plus the
fields of `option["config"]` used by the three transforms). -/
structure OptionCfg where
  option : String
  src_question : String
  dst_question : String := ""
  dst_question_a : String := ""
  dst_question_b : String := ""
  calculation : String := ""
  relevant : String := ""
  default : Option String := none
deriving DecidableEq

/-- Embedding of tree.py `create_split_question`: read the question row
(KeyError when the name is not configured), collect label/hint columns, and
attach the configured choice list when the reference is truthy. -/
def create_split_question (qc : List (String × List (String × String)))
    (chc : List (String × List CCRow)) (qname uid : String) : Except String Question :=
  match alGetS qc qname with
  | none => .error ("KeyError: " ++ qname)
  | some row =>
    let label := row.filter (fun p => strStarts "label" p.1)
    let hint := row.filter (fun p => strStarts "hint" p.1)
    match alGetS row "question_type" with
    | none => .error "KeyError: question_type"
    | some qt =>
      let q : Question :=
        { name := uid
          type := some qt
          label := label
          hint := hint
          choice_list := alGetS row "choice_list" }
      match q.choice_list with
      | none => .ok q
      | some cl =>
        if cl = "" then .ok q
        else
          match alGetS chc cl with
          | none => .error ("KeyError: " ++ cl)
          | some rows =>
            .ok { q with choices := some (rows.map (fun r =>
              ({ list_name := r.choice_list
                 name := r.name
                 label := r.labels
                 cart_value := r.target_value } : Choice))) }

/-- Python substring membership `needle in hay`. -/
def substrB (needle hay : String) : Bool :=
  hay.data.tails.any (fun suf => needle.data.isPrefixOf suf)

/-- The condition-removal loop of `apply_hide_option`, which removes from a
list while iterating over it; the CPython iterator index is kept, so the
element following a removed one is skipped, exactly as in the source. The
fuel argument only bounds the iteration count (the loop stops once the index
reaches the shrinking list length, after at most `l.length - i` steps, so
any fuel of at least that much computes the fixpoint). -/
def pyRemoveIterGo (name : String) : Nat → List String → Nat → List String
  | 0, l, _ => l
  | fuel + 1, l, i =>
    if h : i < l.length then
      let c := l.get ⟨i, h⟩
      if substrB name c then pyRemoveIterGo name fuel (l.erase c) (i + 1)
      else pyRemoveIterGo name fuel l (i + 1)
    else l

/-- The removal loop started at iterator index 0 with sufficient fuel. -/
def pyRemoveIter (name : String) (l : List String) : List String :=
  pyRemoveIterGo name l.length l 0

mutual

/-- The second half of `apply_hide_option`: walk the node and its subtree
(`node.preorder()` includes the node itself) and run the removal loop on
every conditions list, dropping conjuncts that mention the hidden node name
as a substring. -/
def hideWalk (name : String) : TNode → Except String TNode
  | TNode.mk nm uid cart rule q kids =>
    match q with
    | none => .error "AttributeError: question is None"
    | some qu =>
      match qu.conditions with
      | none => .error "TypeError: argument of type NoneType is not iterable"
      | some conds =>
        match hideWalkList name kids with
        | .error e => .error e
        | .ok kids2 =>
          .ok (TNode.mk nm uid cart rule
            (some { qu with conditions := some (pyRemoveIter name conds) }) kids2)

def hideWalkList (name : String) : List TNode → Except String (List TNode)
  | [] => .ok []
  | t :: ts =>
    match hideWalk name t with
    | .error e => .error e
    | .ok t2 =>
      match hideWalkList name ts with
      | .error e => .error e
      | .ok ts2 => .ok (t2 :: ts2)

end

/-- Embedding of options.py `apply_hide_option` on the subtree rooted at the
target node, with the ancestor chain `anc` supplying (name, uid) pairs for
xpath resolution: append the resolved extra relevance conjunct (if not
already present), then strip conjuncts mentioning the node name from the
node and all its descendants. -/
def apply_hide_option (opt : OptionCfg) (anc : List (String × String))
    (t : TNode) : Except String TNode :=
  match t.question with
  | none => .error "AttributeError: question is None"
  | some qu =>
    match qu.conditions with
    | none => .error "TypeError: argument of type NoneType is not iterable"
    | some conds =>
      match update_xpath_variables anc opt.relevant with
      | .error e => .error e
      | .ok resolved =>
        let conds2 := if resolved ∈ conds then conds else conds ++ [resolved]
        hideWalk t.name
          (TNode.mk t.name t.uid t.cart t.cart_rule
            (some { qu with conditions := some conds2 }) t.children)

mutual

/-- Embedding of the per-option preorder traversal of options.py
`apply_options`. The source handles only `calculate` and `split` directives
(there is no branch for `hide`); a matching node is wrapped with the new
upstream question node(s) (`insert_before`), its question becomes a
pass-through calculation, and traversal continues into the original
children. Wrapping the root raises (insert_before dereferences the absent
parent). `anc` is the (name, uid) ancestor chain, `k` the uid supply. -/
def aoNode (qc : List (String × List (String × String)))
    (chc : List (String × List CCRow)) (opt : OptionCfg) :
    List (String × String) → Nat → TNode → Except String (TNode × Nat)
  | anc, k, TNode.mk name uid cart rule q kids =>
    if opt.option = "calculate" ∧ name = opt.src_question then
      let newUid := generate_uid opt.dst_question k
      match create_split_question qc chc opt.dst_question newUid with
      | .error e => .error e
      | .ok newQ0 =>
        match anc with
        | [] => .error "AttributeError: NoneType has no attribute children"
        | _ :: _ =>
          match q with
          | none => .error "AttributeError: question is None"
          | some qu =>
            match update_xpath_variables ((opt.dst_question, newUid) :: anc)
                opt.calculation with
            | .error e => .error e
            | .ok calcR =>
              let q2 : Question :=
                { qu with
                  type := some "calculate"
                  calculation := some calcR
                  default := (match opt.default with
                    | some d => if d ≠ "" then some d else qu.default
                    | none => qu.default)
                  choices_from_parent := none }
              let newQ : Question :=
                { newQ0 with
                  conditions := qu.conditions
                  choices_from_parent := qu.choices_from_parent }
              match aoList qc chc opt
                  ((name, uid) :: (opt.dst_question, newUid) :: anc) (k + 1) kids with
              | .error e => .error e
              | .ok (kids2, k2) =>
                .ok (TNode.mk opt.dst_question newUid cart none (some newQ)
                  [TNode.mk name uid cart rule (some q2) kids2], k2)
    else if opt.option = "split" ∧ name = opt.src_question then
      let uidA := generate_uid opt.dst_question_a k
      let uidB := generate_uid opt.dst_question_b (k + 1)
      match anc with
      | [] => .error "AttributeError: NoneType has no attribute children"
      | _ :: _ =>
        match create_split_question qc chc opt.dst_question_a uidA with
        | .error e => .error e
        | .ok qa0 =>
          match create_split_question qc chc opt.dst_question_b uidB with
          | .error e => .error e
          | .ok qb0 =>
            match q with
            | none => .error "AttributeError: question is None"
            | some qu =>
              match update_xpath_variables
                  ((name, uid) :: (opt.dst_question_b, uidB) ::
                    (opt.dst_question_a, uidA) :: anc).tail opt.calculation with
              | .error e => .error e
              | .ok calcR =>
                let q2 : Question :=
                  { qu with
                    type := some "calculate"
                    calculation := some calcR
                    choices_from_parent := none }
                let qa : Question :=
                  { qa0 with
                    conditions := qu.conditions
                    choices_from_parent := qu.choices_from_parent }
                let qb : Question :=
                  { qb0 with
                    conditions := qu.conditions
                    choices_from_parent := qu.choices_from_parent }
                match aoList qc chc opt
                    ((name, uid) :: (opt.dst_question_b, uidB) ::
                      (opt.dst_question_a, uidA) :: anc) (k + 2) kids with
                | .error e => .error e
                | .ok (kids2, k2) =>
                  .ok (TNode.mk opt.dst_question_a uidA cart none (some qa)
                    [TNode.mk opt.dst_question_b uidB cart none (some qb)
                      [TNode.mk name uid cart rule (some q2) kids2]], k2)
    else
      match aoList qc chc opt ((name, uid) :: anc) k kids with
      | .error e => .error e
      | .ok (kids2, k2) => .ok (TNode.mk name uid cart rule q kids2, k2)

def aoList (qc : List (String × List (String × String)))
    (chc : List (String × List CCRow)) (opt : OptionCfg) :
    List (String × String) → Nat → List TNode → Except String (List TNode × Nat)
  | _, k, [] => .ok ([], k)
  | anc, k, t :: ts =>
    match aoNode qc chc opt anc k t with
    | .error e => .error e
    | .ok (t2, k1) =>
      match aoList qc chc opt anc k1 ts with
      | .error e => .error e
      | .ok (ts2, k2) => .ok (t2 :: ts2, k2)

end

/-- Embedding of options.py `apply_options`: one full preorder traversal per
configured option, on a deep copy of the tree (the pure result). Only
`calculate` and `split` directives have a branch; any other option kind,
including `hide`, leaves the tree untouched. -/
def apply_options (qc : List (String × List (String × String)))
    (chc : List (String × List CCRow)) (opts : List OptionCfg)
    (root : TNode) (k : Nat) : Except String (TNode × Nat) :=
  opts.foldlM (fun acc opt => aoNode qc chc opt [] acc.2 acc.1) (root, k)

/-- The hide directive used as the C9 failing input. -/
def exC9hideOpt : OptionCfg :=
  { option := "hide"
    src_question := "q1"
    relevant := "$\x7br\x7d = " ++ squote ++ "x" ++ squote }

/-- Relevance conjunct of the q1 node in the C9 example. -/
def exC9cond1 : String := "$\x7br_u0\x7d != \x27\x27"

/-- The resolved hide conjunct (`${r}` resolved to the root uid). -/
def exC9relResolved : String := "$\x7br_u0\x7d = " ++ squote ++ "x" ++ squote

/-- The q1 subtree of the C9 example: a question with one relevance conjunct
and a segment child whose conjunct mentions `q1`. -/
def exC9q1sub : TNode :=
  TNode.mk "q1" "q1_u0" none none
    (some { name := "q1_u0", type := some "select_one", conditions := some [exC9cond1] })
    [TNode.mk "segment" "s_u0" none none
      (some { name := "s_u0"
              type := some "calculate"
              conditions := some ["$\x7bq1_u0\x7d != \x27\x27"] }) []]

/-- The C9 example tree: a root question with the q1 subtree below it. -/
def exC9tree : TNode :=
  TNode.mk "r" "r_u0" none none
    (some { name := "r_u0", type := some "select_one", conditions := some [] })
    [exC9q1sub]


end Pathways

/-! # Theorems -/

namespace Pathways

/-- The loop of `get_categorical_values` produces exactly the levels at the
code-1 positions (left), code-3 positions (right) and bounded code-2 positions
(not present), in position order. -/
theorem get_categorical_values_loop_eq (xl : List String) :
    ∀ (row : List Int) (i : Nat),
      get_categorical_values_loop xl row i =
        ((codeIndicesFrom row i 1).map (fun j => xl.getD j ""),
         (codeIndicesFrom row i 3).map (fun j => xl.getD j ""),
         (notPresentIndices row i xl.length).map (fun j => xl.getD j "")) := by
  intro row
  induction row with
  | nil => intro i; simp [get_categorical_values_loop, codeIndicesFrom, notPresentIndices]
  | cons x r ih =>
    intro i
    simp only [get_categorical_values_loop, ih (i + 1), codeIndicesFrom, notPresentIndices]
    by_cases h1 : x = 1
    · simp [h1]
    · by_cases h2 : x = 2
      · by_cases hb : i < xl.length <;> simp [h1, h2, hb]
      · by_cases h3 : x = 3 <;> simp [h1, h2, h3]

/-- Membership characterisation for `codeIndicesFrom`. -/
theorem mem_codeIndicesFrom (c : Int) :
    ∀ (row : List Int) (i p : Nat),
      p ∈ codeIndicesFrom row i c ↔ ∃ j, j < row.length ∧ p = i + j ∧ row.getD j 0 = c := by
  intro row
  induction row with
  | nil => intro i p; simp [codeIndicesFrom]
  | cons x r ih =>
    intro i p
    by_cases hx : x = c
    · simp only [codeIndicesFrom, if_pos hx, List.mem_cons, ih (i + 1)]
      constructor
      · rintro (rfl | ⟨j, hj, rfl, hc⟩)
        · exact ⟨0, by simp, by simp, by simpa using hx⟩
        · exact ⟨j + 1, by simpa using hj, by omega, by simpa using hc⟩
      · rintro ⟨j, hj, rfl, hc⟩
        cases j with
        | zero => left; omega
        | succ j => right; exact ⟨j, by simpa using hj, by omega, by simpa using hc⟩
    · simp only [codeIndicesFrom, if_neg hx, ih (i + 1)]
      constructor
      · rintro ⟨j, hj, rfl, hc⟩
        exact ⟨j + 1, by simpa using hj, by omega, by simpa using hc⟩
      · rintro ⟨j, hj, rfl, hc⟩
        cases j with
        | zero => exact absurd (by simpa using hc) hx
        | succ j => exact ⟨j, by simpa using hj, by omega, by simpa using hc⟩

/-- Membership characterisation for `notPresentIndices`. -/
theorem mem_notPresentIndices :
    ∀ (row : List Int) (i b p : Nat),
      p ∈ notPresentIndices row i b ↔
        ∃ j, j < row.length ∧ p = i + j ∧ row.getD j 0 = 2 ∧ i + j < b := by
  intro row
  induction row with
  | nil => intro i b p; simp [notPresentIndices]
  | cons x r ih =>
    intro i b p
    by_cases hx : x = 2 ∧ i < b
    · simp only [notPresentIndices, if_pos hx, List.mem_cons, ih (i + 1)]
      constructor
      · rintro (rfl | ⟨j, hj, rfl, hc, hbb⟩)
        · exact ⟨0, by simp, by simp, by simpa using hx.1, by simpa using hx.2⟩
        · exact ⟨j + 1, by simpa using hj, by omega, by simpa using hc, by omega⟩
      · rintro ⟨j, hj, rfl, hc, hbb⟩
        cases j with
        | zero => left; omega
        | succ j => right; exact ⟨j, by simpa using hj, by omega, by simpa using hc, by omega⟩
    · simp only [notPresentIndices, if_neg hx, ih (i + 1)]
      constructor
      · rintro ⟨j, hj, rfl, hc, hbb⟩
        exact ⟨j + 1, by simpa using hj, by omega, by simpa using hc, by omega⟩
      · rintro ⟨j, hj, rfl, hc, hbb⟩
        cases j with
        | zero =>
          exact absurd ⟨by simpa using hc, by omega⟩ hx
        | succ j => exact ⟨j, by simpa using hj, by omega, by simpa using hc, by omega⟩

/-- Counting lemma: under the rpart validity conditions (codes of level
positions lie in 1/2/3, padding positions beyond the levels carry code 2),
the three index lists cover the levels from `i` up exactly once. -/
theorem codeIndices_length (b : Nat) :
    ∀ (row : List Int) (i : Nat),
      b ≤ i + row.length →
      (∀ j, j < row.length → i + j < b →
        row.getD j 0 = 1 ∨ row.getD j 0 = 2 ∨ row.getD j 0 = 3) →
      (∀ j, j < row.length → b ≤ i + j → row.getD j 0 = 2) →
      (codeIndicesFrom row i 1).length + (codeIndicesFrom row i 3).length +
        (notPresentIndices row i b).length = b - i := by
  intro row
  induction row with
  | nil =>
    intro i h1 _ _
    simp at h1
    simp [codeIndicesFrom, notPresentIndices]
    omega
  | cons x r ih =>
    intro i hle hcodes hpad
    have hrec := ih (i + 1) (by simp at hle; omega)
      (fun j hj hb => by
        simpa using hcodes (j + 1) (by simp; omega) (by omega))
      (fun j hj hb => by
        simpa using hpad (j + 1) (by simp; omega) (by omega))
    by_cases hib : i < b
    · have hx := hcodes 0 (by simp) (by omega)
      simp only [List.getD_cons_zero] at hx
      rcases hx with hx | hx | hx
      · rw [hx] at *
        simp only [codeIndicesFrom, notPresentIndices]
        norm_num [hib]
        omega
      · rw [hx] at *
        simp only [codeIndicesFrom, notPresentIndices]
        norm_num [hib]
        omega
      · rw [hx] at *
        simp only [codeIndicesFrom, notPresentIndices]
        norm_num [hib]
        omega
    · have hx := hpad 0 (by simp) (by omega)
      simp only [List.getD_cons_zero] at hx
      rw [hx] at *
      simp only [codeIndicesFrom, notPresentIndices]
      norm_num [hib]
      omega

/-- Unfolding of `get_rules` in the categorical case. -/
theorem get_rules_in (var : String) (ncat index : Int) (xl : List String)
    (csplit : List (List Int)) (h1 : ncat ≠ -1) (h2 : ncat ≠ 1) :
    get_rules var ncat index xl csplit =
      (⟨var, "in",
        .cats ((codeIndicesFrom (csplit.getD (index - 1).toNat []) 0 1).map
          (fun j => xl.getD j "")),
        some ((notPresentIndices (csplit.getD (index - 1).toNat []) 0 xl.length).map
          (fun j => xl.getD j ""))⟩,
       ⟨var, "in",
        .cats ((codeIndicesFrom (csplit.getD (index - 1).toNat []) 0 3).map
          (fun j => xl.getD j "")),
        some ((notPresentIndices (csplit.getD (index - 1).toNat []) 0 xl.length).map
          (fun j => xl.getD j ""))⟩) := by
  have hop : get_operator ncat = "in" := by
    simp [get_operator, h1, h2]
  simp [get_rules, hop, get_categorical_values, get_categorical_values_loop_eq]

/-- Claim C1: for a categorical split (operator `in`), every level position is
routed by its csplit code to exactly one of the left value set (code 1), the
not-present set (code 2, positions below the level count), or the right value
set (code 3); the three sets together cover the levels exactly once, so their
lengths sum to the number of levels, and both returned rules carry the same
not-present set. Hypotheses state the rpart csplit row validity: the row
covers all level positions, level positions carry codes 1/2/3, and padding
positions beyond the levels carry code 2. -/
theorem C1_categorical_partition
    (var : String) (ncat index : Int) (xl : List String) (csplit : List (List Int))
    (row : List Int)
    (hncat1 : ncat ≠ -1) (hncat2 : ncat ≠ 1)
    (hrow : csplit.getD (index - 1).toNat [] = row)
    (hlen : xl.length ≤ row.length)
    (hcodes : ∀ j, j < row.length → j < xl.length →
      row.getD j 0 = 1 ∨ row.getD j 0 = 2 ∨ row.getD j 0 = 3)
    (hpad : ∀ j, j < row.length → xl.length ≤ j → row.getD j 0 = 2) :
    ∃ (L R NP : List Nat),
      (get_rules var ncat index xl csplit).1.value =
        .cats (L.map (fun j => xl.getD j "")) ∧
      (get_rules var ncat index xl csplit).2.value =
        .cats (R.map (fun j => xl.getD j "")) ∧
      (get_rules var ncat index xl csplit).1.not_present =
        some (NP.map (fun j => xl.getD j "")) ∧
      (get_rules var ncat index xl csplit).2.not_present =
        some (NP.map (fun j => xl.getD j "")) ∧
      (∀ p, p ∈ L ↔ p < row.length ∧ row.getD p 0 = 1) ∧
      (∀ p, p ∈ R ↔ p < row.length ∧ row.getD p 0 = 3) ∧
      (∀ p, p ∈ NP ↔ p < row.length ∧ p < xl.length ∧ row.getD p 0 = 2) ∧
      L.length + R.length + NP.length = xl.length := by
  have heq := get_rules_in var ncat index xl csplit hncat1 hncat2
  subst hrow
  refine ⟨codeIndicesFrom (csplit.getD (index - 1).toNat []) 0 1,
    codeIndicesFrom (csplit.getD (index - 1).toNat []) 0 3,
    notPresentIndices (csplit.getD (index - 1).toNat []) 0 xl.length,
    ?_, ?_, ?_, ?_, ?_, ?_, ?_, ?_⟩
  · rw [heq]
  · rw [heq]
  · rw [heq]
  · rw [heq]
  · intro p
    rw [mem_codeIndicesFrom]
    constructor
    · rintro ⟨j, hj, rfl, hc⟩
      rw [Nat.zero_add]
      exact ⟨hj, hc⟩
    · rintro ⟨hp, hc⟩; exact ⟨p, hp, by omega, hc⟩
  · intro p
    rw [mem_codeIndicesFrom]
    constructor
    · rintro ⟨j, hj, rfl, hc⟩
      rw [Nat.zero_add]
      exact ⟨hj, hc⟩
    · rintro ⟨hp, hc⟩; exact ⟨p, hp, by omega, hc⟩
  · intro p
    rw [mem_notPresentIndices]
    constructor
    · rintro ⟨j, hj, rfl, hc, hb⟩
      rw [Nat.zero_add]
      rw [Nat.zero_add] at hb
      exact ⟨hj, hb, hc⟩
    · rintro ⟨hp, hb, hc⟩; exact ⟨p, hp, by omega, hc, by omega⟩
  · have := codeIndices_length xl.length (csplit.getD (index - 1).toNat []) 0 (by omega)
      (fun j hj hb => hcodes j hj (by omega))
      (fun j hj hb => hpad j hj (by omega))
    simpa using this

/-- Witness for C1 at a concrete categorical split: three levels, csplit row
`[1, 2, 3]`. -/
theorem C1_categorical_partition_witness :
    ∃ (L R NP : List Nat),
      (get_rules "v" 3 1 ["a", "b", "c"] [[1, 2, 3]]).1.value =
        .cats (L.map (fun j => (["a", "b", "c"] : List String).getD j "")) ∧
      (get_rules "v" 3 1 ["a", "b", "c"] [[1, 2, 3]]).2.value =
        .cats (R.map (fun j => (["a", "b", "c"] : List String).getD j "")) ∧
      (get_rules "v" 3 1 ["a", "b", "c"] [[1, 2, 3]]).1.not_present =
        some (NP.map (fun j => (["a", "b", "c"] : List String).getD j "")) ∧
      (get_rules "v" 3 1 ["a", "b", "c"] [[1, 2, 3]]).2.not_present =
        some (NP.map (fun j => (["a", "b", "c"] : List String).getD j "")) ∧
      (∀ p, p ∈ L ↔ p < ([1, 2, 3] : List Int).length ∧ ([1, 2, 3] : List Int).getD p 0 = 1) ∧
      (∀ p, p ∈ R ↔ p < ([1, 2, 3] : List Int).length ∧ ([1, 2, 3] : List Int).getD p 0 = 3) ∧
      (∀ p, p ∈ NP ↔ p < ([1, 2, 3] : List Int).length ∧ p < (["a", "b", "c"] : List String).length ∧ ([1, 2, 3] : List Int).getD p 0 = 2) ∧
      L.length + R.length + NP.length = (["a", "b", "c"] : List String).length :=
  C1_categorical_partition "v" 3 1 ["a", "b", "c"] [[1, 2, 3]] [1, 2, 3]
    (by decide) (by decide) (by decide) (by decide)
    (by decide) (by decide)

/-! ## Association list lemmas -/

theorem except_bind_ok {α β : Type} (a : Except String α) (f : α → Except String β) (c : β) :
    (a >>= f) = .ok c ↔ ∃ b, a = .ok b ∧ f b = .ok c := by
  cases a with
  | ok b => simp [Bind.bind, Except.bind]
  | error e => simp [Bind.bind, Except.bind]

theorem alKeys_alSet {α : Type} (m : List (Nat × α)) (i : Nat) (v : α) :
    alKeys (alSet m i v) = alKeys m := by
  induction m with
  | nil => simp [alSet]
  | cons kv r ih =>
    obtain ⟨k, w⟩ := kv
    by_cases hk : k = i <;> simp [alSet, alKeys, hk] <;> simpa [alKeys] using ih

theorem alGet_mem_keys {α : Type} (m : List (Nat × α)) (i : Nat) (h : i ∈ alKeys m) :
    ∃ v, alGet m i = some v := by
  induction m with
  | nil => simp [alKeys] at h
  | cons kv r ih =>
    obtain ⟨k, w⟩ := kv
    by_cases hk : k = i
    · exact ⟨w, by simp [alGet, hk]⟩
    · have : i ∈ alKeys r := by
        simp [alKeys] at h ⊢
        tauto
      obtain ⟨v, hv⟩ := ih this
      exact ⟨v, by simp [alGet, hk, hv]⟩

theorem alGet_some_mem_keys {α : Type} (m : List (Nat × α)) (i : Nat) (v : α)
    (h : alGet m i = some v) : i ∈ alKeys m := by
  induction m with
  | nil => simp [alGet] at h
  | cons kv r ih =>
    obtain ⟨k, w⟩ := kv
    by_cases hk : k = i
    · simp [alKeys, hk]
    · simp [alGet, hk] at h
      simp [alKeys]
      right
      simpa [alKeys] using ih h

theorem alGet_alSet_self {α : Type} (m : List (Nat × α)) (i : Nat) (v : α)
    (h : i ∈ alKeys m) : alGet (alSet m i v) i = some v := by
  induction m with
  | nil => simp [alKeys] at h
  | cons kv r ih =>
    obtain ⟨k, w⟩ := kv
    by_cases hk : k = i
    · simp [alSet, alGet, hk]
    · have : i ∈ alKeys r := by
        simp [alKeys] at h ⊢
        tauto
      simp [alSet, alGet, hk, ih this]

theorem alGet_alSet_ne {α : Type} (m : List (Nat × α)) (i j : Nat) (v : α) (h : i ≠ j) :
    alGet (alSet m i v) j = alGet m j := by
  induction m with
  | nil => simp [alSet, alGet]
  | cons kv r ih =>
    obtain ⟨k, w⟩ := kv
    by_cases hk : k = i
    · subst hk
      simp [alSet, alGet, h, Ne.symm h]
    · simp [alSet, alGet, hk]
      by_cases hj : k = j <;> simp [hj, ih]

theorem alGet_of_mem_nodup {α : Type} (m : List (Nat × α)) (i : Nat) (v : α)
    (hnd : (alKeys m).Nodup) (h : (i, v) ∈ m) : alGet m i = some v := by
  induction m with
  | nil => simp at h
  | cons kv r ih =>
    obtain ⟨k, w⟩ := kv
    have hnd' : k ∉ alKeys r ∧ (alKeys r).Nodup := by
      simpa [alKeys] using hnd
    rcases List.mem_cons.mp h with heq | hmem
    · cases heq
      simp [alGet]
    · have hik : i ∈ alKeys r := List.mem_map.mpr ⟨(i, v), hmem, rfl⟩
      have hki : k ≠ i := fun hh => hnd'.1 (hh ▸ hik)
      simp only [alGet, if_neg hki]
      exact ih (by simpa [alKeys] using hnd'.2) hmem

theorem alGet_map {α β : Type} (f : Nat × α → β) (m : List (Nat × α)) (i : Nat) :
    alGet (m.map (fun p => (p.1, f p))) i = (alGet m i).map (fun v => f (i, v)) := by
  induction m with
  | nil => simp [alGet]
  | cons kv r ih =>
    obtain ⟨k, w⟩ := kv
    by_cases hk : k = i
    · subst hk
      simp [alGet]
    · simp [alGet, hk, ih]

theorem alKeys_map {α β : Type} (f : Nat × α → β) (m : List (Nat × α)) :
    alKeys (m.map (fun p => (p.1, f p))) = alKeys m := by
  induction m with
  | nil => rfl
  | cons kv r ih =>
    obtain ⟨k, w⟩ := kv
    simp [alKeys] at ih ⊢

/-! ## linkStep and fold lemmas for build_tree -/

theorem linkStep_root (m : List (Nat × BNode)) : linkStep m 1 = .ok m := by
  simp [linkStep]

theorem linkStep_ok (m : List (Nat × BNode)) (i : Nat) (hne : i ≠ 1)
    (p nd : BNode) (hp : alGet m (i / 2) = some p) (hi : alGet m i = some nd) :
    linkStep m i = .ok
      (alSet (alSet m (i / 2) { p with childrenIdx := p.childrenIdx ++ [i] }) i
        { nd with
          parentIdx := some (i / 2)
          cart_rule := (if i % 2 = 0 then p.cart.left else p.cart.right) }) := by
  simp [linkStep, hne, hp, hi]

theorem linkStep_err (m : List (Nat × BNode)) (i : Nat) (hne : i ≠ 1)
    (hp : alGet m (i / 2) = none) :
    linkStep m i = .error ("KeyError: " ++ toString (i / 2)) := by
  simp [linkStep, hne, hp]

theorem linkStep_keys (m m' : List (Nat × BNode)) (i : Nat)
    (h : linkStep m i = .ok m') : alKeys m' = alKeys m := by
  by_cases hne : i = 1
  · subst hne
    rw [linkStep_root] at h
    cases h
    rfl
  · rcases hget : alGet m (i / 2) with _ | p
    · rw [linkStep_err m i hne hget] at h
      cases h
    · rcases hgi : alGet m i with _ | nd
      · simp [linkStep, hne, hget, hgi] at h
      · rw [linkStep_ok m i hne p nd hget hgi] at h
        cases h
        rw [alKeys_alSet, alKeys_alSet]

theorem linkStep_name_cart (m m' : List (Nat × BNode)) (i : Nat)
    (h : linkStep m i = .ok m') (j : Nat) :
    (alGet m' j).map (fun b => b.name) = (alGet m j).map (fun b => b.name) ∧
    (alGet m' j).map (fun b => b.cart) = (alGet m j).map (fun b => b.cart) := by
  by_cases hne : i = 1
  · subst hne
    rw [linkStep_root] at h
    cases h
    exact ⟨rfl, rfl⟩
  · rcases hget : alGet m (i / 2) with _ | p
    · rw [linkStep_err m i hne hget] at h
      cases h
    · rcases hgi : alGet m i with _ | nd
      · simp [linkStep, hne, hget, hgi] at h
      · rw [linkStep_ok m i hne p nd hget hgi] at h
        cases h
        by_cases hj : j = i
        · subst hj
          rw [alGet_alSet_self _ _ _ (by
            rw [alKeys_alSet]
            exact alGet_some_mem_keys _ _ _ hgi), hgi]
          exact ⟨rfl, rfl⟩
        · rw [alGet_alSet_ne _ _ _ _ (fun hh => hj hh.symm)]
          by_cases hj2 : j = i / 2
          · subst hj2
            rw [alGet_alSet_self _ _ _ (alGet_some_mem_keys _ _ _ hget), hget]
            exact ⟨rfl, rfl⟩
          · rw [alGet_alSet_ne _ _ _ _ (fun hh => hj2 hh.symm)]
            exact ⟨rfl, rfl⟩

theorem linkStep_parent_rule (m m' : List (Nat × BNode)) (i : Nat)
    (h : linkStep m i = .ok m') (j : Nat) (hj : j ≠ i) :
    (alGet m' j).map (fun b => b.parentIdx) = (alGet m j).map (fun b => b.parentIdx) ∧
    (alGet m' j).map (fun b => b.cart_rule) = (alGet m j).map (fun b => b.cart_rule) := by
  by_cases hne : i = 1
  · subst hne
    rw [linkStep_root] at h
    cases h
    exact ⟨rfl, rfl⟩
  · rcases hget : alGet m (i / 2) with _ | p
    · rw [linkStep_err m i hne hget] at h
      cases h
    · rcases hgi : alGet m i with _ | nd
      · simp [linkStep, hne, hget, hgi] at h
      · rw [linkStep_ok m i hne p nd hget hgi] at h
        cases h
        rw [alGet_alSet_ne _ _ _ _ (Ne.symm hj)]
        by_cases hj2 : j = i / 2
        · subst hj2
          rw [alGet_alSet_self _ _ _ (alGet_some_mem_keys _ _ _ hget), hget]
          exact ⟨rfl, rfl⟩
        · rw [alGet_alSet_ne _ _ _ _ (fun hh => hj2 hh.symm)]
          exact ⟨rfl, rfl⟩

theorem linkStep_children_mono (m m' : List (Nat × BNode)) (i : Nat)
    (h : linkStep m i = .ok m') (k x : Nat) (b : BNode)
    (hb : alGet m k = some b) (hx : x ∈ b.childrenIdx) :
    ∃ b', alGet m' k = some b' ∧ x ∈ b'.childrenIdx := by
  by_cases hne : i = 1
  · subst hne
    rw [linkStep_root] at h
    cases h
    exact ⟨b, hb, hx⟩
  · rcases hget : alGet m (i / 2) with _ | p
    · rw [linkStep_err m i hne hget] at h
      cases h
    · rcases hgi : alGet m i with _ | nd
      · simp [linkStep, hne, hget, hgi] at h
      · rw [linkStep_ok m i hne p nd hget hgi] at h
        cases h
        by_cases hk : k = i
        · subst hk
          refine ⟨_, alGet_alSet_self _ _ _ (by
            rw [alKeys_alSet]
            exact alGet_some_mem_keys _ _ _ hgi), ?_⟩
          have hbnd : b = nd := by rw [hb] at hgi; exact Option.some.inj hgi
          subst hbnd
          exact hx
        · rw [alGet_alSet_ne _ _ _ _ (fun hh => hk hh.symm)]
          by_cases hk2 : k = i / 2
          · subst hk2
            refine ⟨_, alGet_alSet_self _ _ _ (alGet_some_mem_keys _ _ _ hget), ?_⟩
            have hbp : b = p := by rw [hb] at hget; exact Option.some.inj hget
            subst hbp
            simp [hx]
          · rw [alGet_alSet_ne _ _ _ _ (fun hh => hk2 hh.symm)]
            exact ⟨b, hb, hx⟩

theorem linkFold_nil (m : List (Nat × BNode)) : linkFold [] m = .ok m := rfl

theorem linkFold_cons (k : Nat) (ks : List Nat) (m : List (Nat × BNode)) :
    linkFold (k :: ks) m = linkStep m k >>= fun m1 => linkFold ks m1 := by
  simp [linkFold, List.foldlM_cons]

theorem linkFold_keys : ∀ (ks : List Nat) (m m' : List (Nat × BNode)),
    linkFold ks m = .ok m' → alKeys m' = alKeys m := by
  intro ks
  induction ks with
  | nil =>
    intro m m' h
    rw [linkFold_nil] at h
    cases h
    rfl
  | cons k ks ih =>
    intro m m' h
    rw [linkFold_cons] at h
    obtain ⟨m1, h1, h2⟩ := (except_bind_ok _ _ _).mp h
    rw [ih m1 m' h2, linkStep_keys m m1 k h1]

theorem linkFold_ok : ∀ (ks : List Nat) (m : List (Nat × BNode)),
    (∀ i ∈ ks, i ∈ alKeys m) → (∀ i ∈ ks, i ≠ 1 → i / 2 ∈ alKeys m) →
    ∃ m', linkFold ks m = .ok m' := by
  intro ks
  induction ks with
  | nil => intro m _ _; exact ⟨m, rfl⟩
  | cons k ks ih =>
    intro m hsub hcl
    by_cases hk : k = 1
    · subst hk
      obtain ⟨m', hm'⟩ := ih m (fun i hi => hsub i (by simp [hi]))
        (fun i hi hne => hcl i (by simp [hi]) hne)
      exact ⟨m', by rw [linkFold_cons, linkStep_root]; simpa using hm'⟩
    · obtain ⟨p, hp⟩ := alGet_mem_keys m (k / 2) (hcl k (by simp) hk)
      obtain ⟨nd, hnd⟩ := alGet_mem_keys m k (hsub k (by simp))
      have hstep := linkStep_ok m k hk p nd hp hnd
      set m1 := alSet (alSet m (k / 2) { p with childrenIdx := p.childrenIdx ++ [k] }) k
        { nd with
          parentIdx := some (k / 2)
          cart_rule := (if k % 2 = 0 then p.cart.left else p.cart.right) } with hm1
      have hkeys : alKeys m1 = alKeys m := by
        rw [hm1, alKeys_alSet, alKeys_alSet]
      obtain ⟨m', hm'⟩ := ih m1 (fun i hi => by rw [hkeys]; exact hsub i (by simp [hi]))
        (fun i hi hne => by rw [hkeys]; exact hcl i (by simp [hi]) hne)
      refine ⟨m', ?_⟩
      rw [linkFold_cons, hstep]
      simpa using hm'

theorem linkFold_name_cart : ∀ (ks : List Nat) (m m' : List (Nat × BNode)),
    linkFold ks m = .ok m' → ∀ j,
    (alGet m' j).map (fun b => b.name) = (alGet m j).map (fun b => b.name) ∧
    (alGet m' j).map (fun b => b.cart) = (alGet m j).map (fun b => b.cart) := by
  intro ks
  induction ks with
  | nil =>
    intro m m' h j
    rw [linkFold_nil] at h
    cases h
    exact ⟨rfl, rfl⟩
  | cons k ks ih =>
    intro m m' h j
    rw [linkFold_cons] at h
    obtain ⟨m1, h1, h2⟩ := (except_bind_ok _ _ _).mp h
    obtain ⟨ha, hb⟩ := ih m1 m' h2 j
    obtain ⟨hc, hd⟩ := linkStep_name_cart m m1 k h1 j
    exact ⟨ha.trans hc, hb.trans hd⟩

theorem linkFold_parent_rule : ∀ (ks : List Nat) (m m' : List (Nat × BNode)),
    linkFold ks m = .ok m' → ∀ j, (j = 1 ∨ j ∉ ks) →
    (alGet m' j).map (fun b => b.parentIdx) = (alGet m j).map (fun b => b.parentIdx) ∧
    (alGet m' j).map (fun b => b.cart_rule) = (alGet m j).map (fun b => b.cart_rule) := by
  intro ks
  induction ks with
  | nil =>
    intro m m' h j _
    rw [linkFold_nil] at h
    cases h
    exact ⟨rfl, rfl⟩
  | cons k ks ih =>
    intro m m' h j hj
    rw [linkFold_cons] at h
    obtain ⟨m1, h1, h2⟩ := (except_bind_ok _ _ _).mp h
    have hj' : j = 1 ∨ j ∉ ks := by
      rcases hj with hj | hj
      · exact Or.inl hj
      · exact Or.inr (fun hh => hj (by simp [hh]))
    obtain ⟨ha, hb⟩ := ih m1 m' h2 j hj'
    have hstep : (alGet m1 j).map (fun b => b.parentIdx) =
          (alGet m j).map (fun b => b.parentIdx) ∧
        (alGet m1 j).map (fun b => b.cart_rule) =
          (alGet m j).map (fun b => b.cart_rule) := by
      rcases hj with hj | hj
      · subst hj
        by_cases hk : k = 1
        · subst hk
          rw [linkStep_root] at h1
          cases h1
          exact ⟨rfl, rfl⟩
        · exact linkStep_parent_rule m m1 k h1 1 (Ne.symm hk)
      · have : j ≠ k := fun hh => hj (by simp [hh])
        exact linkStep_parent_rule m m1 k h1 j this
    exact ⟨ha.trans hstep.1, hb.trans hstep.2⟩

theorem linkFold_children_mono : ∀ (ks : List Nat) (m m' : List (Nat × BNode)),
    linkFold ks m = .ok m' → ∀ (j x : Nat) (b : BNode),
    alGet m j = some b → x ∈ b.childrenIdx →
    ∃ b', alGet m' j = some b' ∧ x ∈ b'.childrenIdx := by
  intro ks
  induction ks with
  | nil =>
    intro m m' h j x b hb hx
    rw [linkFold_nil] at h
    cases h
    exact ⟨b, hb, hx⟩
  | cons k ks ih =>
    intro m m' h j x b hb hx
    rw [linkFold_cons] at h
    obtain ⟨m1, h1, h2⟩ := (except_bind_ok _ _ _).mp h
    obtain ⟨b1, hb1, hx1⟩ := linkStep_children_mono m m1 k h1 j x b hb hx
    exact ih m1 m' h2 j x b1 hb1 hx1

theorem linkFold_links : ∀ (ks : List Nat) (m m' : List (Nat × BNode)),
    ks.Nodup → linkFold ks m = .ok m' →
    ∀ i ∈ ks, i ≠ 1 → 0 < i → ∀ (p nd : BNode),
    alGet m (i / 2) = some p → alGet m i = some nd →
    ∃ b, alGet m' i = some b ∧ b.parentIdx = some (i / 2) ∧
      b.cart_rule = (if i % 2 = 0 then p.cart.left else p.cart.right) ∧
      b.name = nd.name ∧
      ∃ pb, alGet m' (i / 2) = some pb ∧ i ∈ pb.childrenIdx := by
  intro ks
  induction ks with
  | nil => intro m m' _ _ i hi; simp at hi
  | cons k ks ih =>
    intro m m' hnd' h i hi hne hpos p nd hp hnd
    rw [linkFold_cons] at h
    obtain ⟨m1, h1, h2⟩ := (except_bind_ok _ _ _).mp h
    rw [List.nodup_cons] at hnd'
    rcases List.mem_cons.mp hi with rfl | hi'
    · -- the step for i itself
      rw [linkStep_ok m i hne p nd hp hnd] at h1
      have hbig := Except.ok.inj h1
      have hi2ne : i / 2 ≠ i := by omega
      have hmem_i : i ∈ alKeys (alSet m (i / 2)
          { p with childrenIdx := p.childrenIdx ++ [i] }) := by
        rw [alKeys_alSet]
        exact alGet_some_mem_keys _ _ _ hnd
      have hm1i : alGet m1 i = some
          { nd with
            parentIdx := some (i / 2)
            cart_rule := (if i % 2 = 0 then p.cart.left else p.cart.right) } := by
        rw [← hbig]
        exact alGet_alSet_self _ _ _ hmem_i
      have hm1p : alGet m1 (i / 2) = some
          { p with childrenIdx := p.childrenIdx ++ [i] } := by
        rw [← hbig, alGet_alSet_ne _ _ _ _ (Ne.symm hi2ne)]
        exact alGet_alSet_self _ _ _ (alGet_some_mem_keys _ _ _ hp)
      -- parent and rule of i survive the rest of the fold
      obtain ⟨hpar, hrule⟩ := linkFold_parent_rule ks m1 m' h2 i (Or.inr hnd'.1)
      obtain ⟨hname, _⟩ := linkFold_name_cart ks m1 m' h2 i
      rw [hm1i] at hpar hrule hname
      rcases hget : alGet m' i with _ | b
      · rw [hget] at hpar; cases hpar
      · rw [hget] at hpar hrule hname
        simp only [Option.map_some'] at hpar hrule hname
        obtain ⟨pb, hpb, hpbx⟩ := linkFold_children_mono ks m1 m' h2 (i / 2) i
          { p with childrenIdx := p.childrenIdx ++ [i] } hm1p (by simp)
        exact ⟨b, rfl, by simpa using hpar, by simpa using hrule,
          by simpa using hname, pb, hpb, hpbx⟩
    · -- i is linked later in the fold
      have hc := linkStep_name_cart m m1 k h1
      obtain ⟨_, hcp⟩ := hc (i / 2)
      obtain ⟨hcn, _⟩ := hc i
      rw [hp] at hcp
      rw [hnd] at hcn
      rcases hget1 : alGet m1 (i / 2) with _ | p1
      · rw [hget1] at hcp; cases hcp
      · rcases hget2 : alGet m1 i with _ | nd1
        · rw [hget2] at hcn; cases hcn
        · rw [hget1] at hcp
          rw [hget2] at hcn
          simp only [Option.map_some'] at hcp hcn
          obtain ⟨b, hb, hbp, hbr, hbn, pb, hpb, hpbx⟩ :=
            ih m1 m' hnd'.2 h2 i hi' hne hpos p1 nd1 hget1 hget2
          have hcp' : p1.cart = p.cart := Option.some.inj hcp
          have hcn' : nd1.name = nd.name := Option.some.inj hcn
          refine ⟨b, hb, hbp, ?_, ?_, pb, hpb, hpbx⟩
          · rw [hbr, hcp']
          · rw [hbn, hcn']


/-- Claim C2 (amended): for an input CART node collection, keyed by distinct
positive binary indices, that contains index 1 and contains the parent index
`i / 2` of every non-root index it contains, `build_tree` succeeds and
returns the dict whose entry 1 is the root (no parent); every non-root entry
`i` is parented at `⌊i / 2⌋`, appears among the children of that parent, and
carries the parent CART left rule when `i` is even and the right rule when
odd; every leaf entry is named `segment` and every split entry is named by
its split variable with dots replaced by underscores and lower-cased. (The
unamended claim, quantified over every collection containing index 1, fails
when some parent index is absent: see the counterexample.) -/
theorem C2_build_tree_links (input : List (Nat × CARTNode)) (strata : String)
    (hnodup : (input.map (fun p => p.1)).Nodup)
    (hroot : 1 ∈ input.map (fun p => p.1))
    (hpos : ∀ i ∈ input.map (fun p => p.1), 0 < i)
    (hclosed : ∀ i ∈ input.map (fun p => p.1), i ≠ 1 → i / 2 ∈ input.map (fun p => p.1)) :
    ∃ m, build_tree input strata = .ok m ∧
      (∃ rootb, alGet m 1 = some rootb ∧ rootb.parentIdx = none) ∧
      (∀ i c, (i, c) ∈ input →
        ∃ b, alGet m i = some b ∧
          b.name = (if c.is_leaf then "segment" else normalizeName c.var) ∧
          (i ≠ 1 →
            b.parentIdx = some (i / 2) ∧
            (∃ pb, alGet m (i / 2) = some pb ∧ i ∈ pb.childrenIdx) ∧
            (∀ pc, (i / 2, pc) ∈ input →
              b.cart_rule = (if i % 2 = 0 then pc.left else pc.right)))) := by
  set m0 := input.map (fun p => (p.1, mkBNode p.2 strata)) with hm0
  have hkeys0 : alKeys m0 = input.map (fun p => p.1) := by
    rw [hm0]
    exact alKeys_map (fun p => mkBNode p.2 strata) input
  obtain ⟨m, hm⟩ := linkFold_ok (input.map (fun p => p.1)) m0
    (fun i hi => by rw [hkeys0]; exact hi)
    (fun i hi hne => by rw [hkeys0]; exact hclosed i hi hne)
  have hkeysm : alKeys m = alKeys m0 := linkFold_keys _ _ _ hm
  have h1mem : 1 ∈ alKeys m := by rw [hkeysm, hkeys0]; exact hroot
  obtain ⟨rootb, hrootb⟩ := alGet_mem_keys m 1 h1mem
  have hbt : build_tree input strata = .ok m := by
    simp only [build_tree, ← hm0, hm, bind, Except.bind, hrootb]
  refine ⟨m, hbt, ?_, ?_⟩
  · -- the root has no parent
    have hpar := (linkFold_parent_rule _ _ _ hm 1 (Or.inl rfl)).1
    obtain ⟨c1, hc1⟩ := alGet_mem_keys input 1 (by
      have : 1 ∈ alKeys input := hroot
      exact this)
    have hm01 : alGet m0 1 = some (mkBNode c1 strata) := by
      rw [hm0, alGet_map, hc1]
      rfl
    rw [hrootb, hm01] at hpar
    simp only [Option.map_some'] at hpar
    exact ⟨rootb, hrootb, by simpa [mkBNode] using hpar⟩
  · intro i c hic
    have hgi : alGet input i = some c := alGet_of_mem_nodup input i c hnodup hic
    have hm0i : alGet m0 i = some (mkBNode c strata) := by
      rw [hm0, alGet_map, hgi]
      rfl
    have hikey : i ∈ input.map (fun p => p.1) :=
      List.mem_map.mpr ⟨(i, c), hic, rfl⟩
    by_cases hne : i = 1
    · subst hne
      obtain ⟨hname, _⟩ := linkFold_name_cart _ _ _ hm 1
      rw [hm0i] at hname
      rcases hget : alGet m 1 with _ | b
      · rw [hget] at hname; cases hname
      · rw [hget] at hname
        simp only [Option.map_some'] at hname
        exact ⟨b, rfl, by simpa [mkBNode] using hname, fun hh => absurd rfl hh⟩
    · have hp2 : i / 2 ∈ alKeys m0 := by
        rw [hkeys0]
        exact hclosed i hikey hne
      obtain ⟨p, hp⟩ := alGet_mem_keys m0 (i / 2) hp2
      obtain ⟨b, hb, hbpar, hbrule, hbname, pb, hpb, hpbx⟩ :=
        linkFold_links _ _ _ hnodup hm i hikey hne (hpos i hikey) p (mkBNode c strata)
          hp hm0i
      refine ⟨b, hb, ?_, fun _ => ⟨hbpar, ⟨pb, hpb, hpbx⟩, ?_⟩⟩
      · rw [hbname]
        rfl
      · intro pc hpc
        have : alGet input (i / 2) = some pc := alGet_of_mem_nodup input _ pc hnodup hpc
        have hpm0 : alGet m0 (i / 2) = some (mkBNode pc strata) := by
          rw [hm0, alGet_map, this]
          rfl
        rw [hp] at hpm0
        have hpeq : p = mkBNode pc strata := Option.some.inj hpm0
        rw [hbrule, hpeq]
        rfl

/-- Counterexample for C2 as stated: the collection with indices 1 and 4
contains index 1, yet `build_tree` raises a KeyError (the parent index 2 of
node 4 is absent) instead of returning a tree. -/
theorem C2_build_tree_counterexample :
    1 ∈ ([(1, (⟨1, "X", "<leaf>", none, none, none⟩ : CARTNode)),
          (4, (⟨4, "Y", "<leaf>", none, none, none⟩ : CARTNode))].map (fun p => p.1)) ∧
    isError (build_tree
      [(1, (⟨1, "X", "<leaf>", none, none, none⟩ : CARTNode)),
       (4, (⟨4, "Y", "<leaf>", none, none, none⟩ : CARTNode))] "rural") = true := by
  constructor
  · decide
  · rfl

/-- Concrete three-node model: root split on `Ed.Lev` with leaves 2 and 3. -/
def exInput : List (Nat × CARTNode) :=
  [(1, ⟨1, "X", "Ed.Lev", some ⟨"Ed.Lev", ">", .num 10, none⟩,
    some ⟨"Ed.Lev", "<", .num 10, none⟩, none⟩),
   (2, ⟨2, "X", "<leaf>", none, none, none⟩),
   (3, ⟨3, "Y", "<leaf>", none, none, none⟩)]

/-- Witness for C2: building the three-node example succeeds with the stated
links. -/
theorem C2_build_tree_links_witness :
    ∃ m, build_tree exInput "rural" = .ok m ∧
      (∃ rootb, alGet m 1 = some rootb ∧ rootb.parentIdx = none) ∧
      (∀ i c, (i, c) ∈ exInput →
        ∃ b, alGet m i = some b ∧
          b.name = (if c.is_leaf then "segment" else normalizeName c.var) ∧
          (i ≠ 1 →
            b.parentIdx = some (i / 2) ∧
            (∃ pb, alGet m (i / 2) = some pb ∧ i ∈ pb.childrenIdx) ∧
            (∀ pc, (i / 2, pc) ∈ exInput →
              b.cart_rule = (if i % 2 = 0 then pc.left else pc.right)))) :=
  C2_build_tree_links exInput "rural" (by decide) (by decide) (by decide) (by decide)


/-- Claim C3: for continuous splits, `ncat = -1` yields left `(<, c)` and
right `(>, c)`, while `ncat = 1` yields left `(>, c)` and right `(<, c)`: the
assignment of the two comparison operators to left/right under `ncat = -1` is
exactly the swap of the assignment under `ncat = 1`. -/
theorem C3_continuous_rule_swap (var : String) (c : Int) (xl : List String)
    (csplit : List (List Int)) :
    get_rules var (-1) c xl csplit =
      (⟨var, "<", .num c, none⟩, ⟨var, ">", .num c, none⟩) ∧
    get_rules var 1 c xl csplit =
      (⟨var, ">", .num c, none⟩, ⟨var, "<", .num c, none⟩) := by
  constructor <;> simp [get_rules, get_operator]

/-- Claim C10: the serialized relevance expression is `None` exactly when the
conditions list is absent or empty, and otherwise is each condition wrapped
in parentheses and joined with a logical and, in list order; `to_xlsform`
emits that value in the `relevant` column. -/
theorem C10_question_relevant (q : Question) (ty : String) (hty : q.type = some ty) :
    ((q.conditions = none ∨ q.conditions = some []) →
      q.relevant = none ∧
      ∃ rows, q.to_xlsform = .ok rows ∧ ("relevant", Cell.null) ∈ rows) ∧
    (∀ c cs, q.conditions = some (c :: cs) →
      q.relevant = some (String.intercalate " and "
        ((c :: cs).map (fun x => "(" ++ x ++ ")"))) ∧
      ∃ rows, q.to_xlsform = .ok rows ∧
        ("relevant", Cell.str (String.intercalate " and "
          ((c :: cs).map (fun x => "(" ++ x ++ ")")))) ∈ rows) := by
  constructor
  · intro hc
    have hrel : q.relevant = none := by
      rcases hc with hc | hc <;> simp [Question.relevant, hc]
    refine ⟨hrel, ?_⟩
    refine ⟨_, by rw [Question.to_xlsform, hty], ?_⟩
    simp [cellOfOpt, hrel]
  · intro c cs hc
    have hrel : q.relevant = some (String.intercalate " and "
        ((c :: cs).map (fun x => "(" ++ x ++ ")"))) := by
      simp [Question.relevant, hc]
    refine ⟨hrel, ?_⟩
    refine ⟨_, by rw [Question.to_xlsform, hty], ?_⟩
    simp [cellOfOpt, hrel]

/-- Witness for C10 at a concrete question with two conditions and at one
with an empty conditions list. -/
theorem C10_question_relevant_witness :
    ((exQempty.conditions = none ∨ exQempty.conditions = some []) →
      exQempty.relevant = none ∧
      ∃ rows, exQempty.to_xlsform = .ok rows ∧ ("relevant", Cell.null) ∈ rows) ∧
    (∀ c cs, exQtwo.conditions = some (c :: cs) →
      exQtwo.relevant =
        some (String.intercalate " and " ((c :: cs).map (fun x => "(" ++ x ++ ")"))) ∧
      ∃ rows, exQtwo.to_xlsform = .ok rows ∧
        ("relevant", Cell.str (String.intercalate " and "
          ((c :: cs).map (fun x => "(" ++ x ++ ")")))) ∈ rows) :=
  ⟨(C10_question_relevant exQempty "integer" rfl).1,
   (C10_question_relevant exQtwo "integer" rfl).2⟩

/-- Claim C8: `merge_trees` returns a root with exactly two children whose
edge rules are `in` rules over the synthetic `location` variable with the
disjoint value sets `rural` and `urban`, and each child equals the
corresponding input tree up to the assigned root edge rule (the source deep
copies, so the inputs are not modified). -/
theorem C8_merge_trees_shape (a b : TNode) :
    ∃ ca cb lr rr,
      (merge_trees a b).children = [ca, cb] ∧
      ca.cart_rule = some lr ∧ cb.cart_rule = some rr ∧
      lr.operator = "in" ∧ rr.operator = "in" ∧
      lr.var = "location" ∧ rr.var = "location" ∧
      lr.value = .cats ["rural"] ∧ rr.value = .cats ["urban"] ∧
      (∀ v, v ∈ (["rural"] : List String) → v ∉ (["urban"] : List String)) ∧
      ca.withRule a.cart_rule = a ∧ cb.withRule b.cart_rule = b := by
  cases a with
  | mk an au ac ar aq ach =>
    cases b with
    | mk bn bu bc br bq bch =>
      exact ⟨_, _, _, _, rfl, rfl, rfl, rfl, rfl, rfl, rfl, rfl, rfl,
        by decide, rfl, rfl⟩

/-- Claim C6 evaluated at a failing input: in the chain 0 → 1 → 2, removing
node 1 re-points the parent reference of child 2 at node 0, but never adds 2
to the children list of node 0, so node 2 is no longer reachable from the
root by children lists, breaking tree connectivity. -/
theorem C6_remove_breaks_connectivity :
    (removeNode exC6store 1).parent 2 = some 0 ∧
    (2 ∈ reachable exC6store 5 0) ∧
    (2 ∉ (removeNode exC6store 1).children 0) ∧
    (2 ∉ reachable (removeNode exC6store 1) 5 0) := by
  decide

/-- No ancestor with the given name means `resolveUid` fails. -/
theorem resolveUid_eq_none : ∀ (parents : List (String × String)) (name : String),
    (∀ p ∈ parents, p.1 ≠ name) → resolveUid parents name = none := by
  intro parents
  induction parents with
  | nil => intro name _; rfl
  | cons p r ih =>
    intro name h
    obtain ⟨n, u⟩ := p
    have hn : n ≠ name := h (n, u) (by simp)
    simp only [resolveUid, if_neg hn]
    exact ih name (fun q hq => h q (by simp [hq]))

/-- An unresolved variable anywhere in the list makes `buildMapping` raise. -/
theorem buildMapping_error_of_unresolved (parents : List (String × String)) :
    ∀ (vs : List String) (name : String), name ∈ vs →
    resolveUid parents name = none →
    ∃ msg, buildMapping parents vs = .error msg := by
  intro vs
  induction vs with
  | nil => intro name h; simp at h
  | cons v vs ih =>
    intro name h hres
    rcases List.mem_cons.mp h with rfl | h'
    · exact ⟨"Variable " ++ squote ++ name ++ squote ++ " not found in parent nodes.",
        by simp [buildMapping, hres]⟩
    · cases hv : resolveUid parents v with
      | none =>
        exact ⟨"Variable " ++ squote ++ v ++ squote ++ " not found in parent nodes.",
          by simp [buildMapping, hv]⟩
      | some u =>
        by_cases hu : u = ""
        · exact ⟨"Variable " ++ squote ++ v ++ squote ++ " not found in parent nodes.",
            by simp [buildMapping, hv, hu]⟩
        · obtain ⟨msg, hmsg⟩ := ih name h' hres
          exact ⟨msg, by simp [buildMapping, hv, hu, hmsg, Except.map]⟩

/-- When every variable resolves to a non-empty uid, `buildMapping` succeeds
with the braced uid of the first (nearest) matching ancestor for each
variable. -/
theorem buildMapping_ok (parents : List (String × String)) :
    ∀ (vs : List String),
    (∀ v ∈ vs, ∃ u, resolveUid parents v = some u ∧ u ≠ "") →
    buildMapping parents vs = .ok (vs.map (fun v =>
      (v, lbrace ++ (resolveUid parents v).getD "" ++ rbrace))) := by
  intro vs
  induction vs with
  | nil => intro _; rfl
  | cons v vs ih =>
    intro hall
    obtain ⟨u, hu, hne⟩ := hall v (by simp)
    have hrec := ih (fun w hw => hall w (by simp [hw]))
    simp [buildMapping, hu, hne, hrec, Except.map]

/-- Claim C5: if the expression contains a brace reference whose name matches
no ancestor, `update_xpath_variables` raises (it never returns a resolved
string); if the expression has no brace reference it is returned unchanged;
and when every referenced name resolves to a (non-empty) ancestor uid, the
result is exactly the expression with each braced reference replaced by the
braced uid of the nearest matching ancestor. -/
theorem C5_update_xpath_variables (parents : List (String × String))
    (expression : String) (name : String) :
    (name ∈ findBracedAux expression.data none →
      (∀ p ∈ parents, p.1 ≠ name) →
      ∃ msg, update_xpath_variables parents expression = .error msg) ∧
    (findBracedAux expression.data none = [] →
      update_xpath_variables parents expression = .ok expression) ∧
    (findBracedAux expression.data none ≠ [] →
      (∀ v ∈ findBracedAux expression.data none,
        ∃ u, resolveUid parents v = some u ∧ u ≠ "") →
      update_xpath_variables parents expression =
        .ok (String.mk (pyFormatAux
          ((findBracedAux expression.data none).dedup.map (fun v =>
            (v, lbrace ++ (resolveUid parents v).getD "" ++ rbrace)))
          expression.data none))) := by
  refine ⟨?_, ?_, ?_⟩
  · intro hmem hnone
    have hres : resolveUid parents name = none := resolveUid_eq_none parents name hnone
    have hne : findBracedAux expression.data none ≠ [] := List.ne_nil_of_mem hmem
    have hvars : extract_xpath_variables expression =
        some (findBracedAux expression.data none).dedup := by
      simp [extract_xpath_variables, hne]
    obtain ⟨msg, hmsg⟩ := buildMapping_error_of_unresolved parents _ name
      (List.mem_dedup.mpr hmem) hres
    exact ⟨msg, by simp [update_xpath_variables, hvars, hmsg, Except.map]⟩
  · intro hnil
    have hvars : extract_xpath_variables expression = none := by
      simp [extract_xpath_variables, hnil]
    simp [update_xpath_variables, hvars]
  · intro hne hall
    have hvars : extract_xpath_variables expression =
        some (findBracedAux expression.data none).dedup := by
      simp [extract_xpath_variables, hne]
    have hmap := buildMapping_ok parents (findBracedAux expression.data none).dedup
      (fun v hv => hall v (List.mem_dedup.mp hv))
    simp [update_xpath_variables, hvars, hmap, Except.map]

/-- Witness for C5: an unresolved reference raises; a resolved reference is
substituted with the ancestor uid (also evaluated concretely). -/
theorem C5_update_xpath_variables_witness :
    (∃ msg, update_xpath_variables [("x", "x_u1")] "$\x7bed\x7d > 2" = .error msg) ∧
    update_xpath_variables [("ed", "ed_u7")] "$\x7bed\x7d > 2" =
      .ok (String.mk (pyFormatAux
        ((findBracedAux ("$\x7bed\x7d > 2" : String).data none).dedup.map (fun v =>
          (v, lbrace ++ (resolveUid [("ed", "ed_u7")] v).getD "" ++ rbrace)))
        ("$\x7bed\x7d > 2" : String).data none)) ∧
    update_xpath_variables [("ed", "ed_u7")] "$\x7bed\x7d > 2" =
      .ok "$\x7bed_u7\x7d > 2" :=
  ⟨(C5_update_xpath_variables [("x", "x_u1")] "$\x7bed\x7d > 2" "ed").1
      (by decide) (by decide),
   (C5_update_xpath_variables [("ed", "ed_u7")] "$\x7bed\x7d > 2" "ed").2.2
      (by decide)
      (by
        intro v hv
        have heq : findBracedAux ("$\x7bed\x7d > 2" : String).data none = ["ed"] := by
          decide
        rw [heq] at hv
        have hv' : v = "ed" := by simpa using hv
        subst hv'
        exact ⟨"ed_u7", by decide, by decide⟩),
   by rfl⟩

/-! ## enforce_relevance lemmas -/

mutual

theorem rinfos_map_id : ∀ (anc : List (Nat × String × String)) (t : RTree),
    (rinfos anc t).map (fun i => i.id) = idsOf t
  | anc, .mk i qn qt kids => by
    simp only [rinfos, idsOf, List.map_cons]
    exact congrArg _ (rinfos_map_idL ((i, qn, qt) :: anc) kids)

theorem rinfos_map_idL : ∀ (anc : List (Nat × String × String)) (ts : List RTree),
    (rinfosL anc ts).map (fun i => i.id) = idsOfL ts
  | _, [] => by simp [rinfosL, idsOfL]
  | anc, t :: ts => by
    simp only [rinfosL, idsOfL, List.map_append]
    rw [rinfos_map_id anc t, rinfos_map_idL anc ts]

end

mutual

theorem rinfos_closed : ∀ (anc : List (Nat × String × String)) (t : RTree),
    ∀ info ∈ rinfos anc t,
      (∀ pid pn pt, info.parent = some (pid, pn, pt) →
        pid ∈ anc.map (fun p => p.1) ∨ pid ∈ idsOf t) ∧
      (∀ a ∈ info.ancestors, a ∈ anc.map (fun p => p.1) ∨ a ∈ idsOf t)
  | anc, .mk i qn qt kids => by
    intro info hinfo
    simp only [rinfos] at hinfo
    rcases List.mem_cons.mp hinfo with rfl | hmem
    · constructor
      · intro pid pn pt hp
        cases anc with
        | nil => simp at hp
        | cons x r =>
          simp only [List.head?] at hp
          cases hp
          left
          simp
      · intro a ha
        left
        simpa using ha
    · have h := rinfos_closedL ((i, qn, qt) :: anc) kids info hmem
      constructor
      · intro pid pn pt hp
        rcases h.1 pid pn pt hp with hx | hx
        · simp only [List.map_cons] at hx
          rcases List.mem_cons.mp hx with rfl | hx
          · right
            simp [idsOf]
          · left
            exact hx
        · right
          simp [idsOf, hx]
      · intro a ha
        rcases h.2 a ha with hx | hx
        · simp only [List.map_cons] at hx
          rcases List.mem_cons.mp hx with rfl | hx
          · right
            simp [idsOf]
          · left
            exact hx
        · right
          simp [idsOf, hx]

theorem rinfos_closedL : ∀ (anc : List (Nat × String × String)) (ts : List RTree),
    ∀ info ∈ rinfosL anc ts,
      (∀ pid pn pt, info.parent = some (pid, pn, pt) →
        pid ∈ anc.map (fun p => p.1) ∨ pid ∈ idsOfL ts) ∧
      (∀ a ∈ info.ancestors, a ∈ anc.map (fun p => p.1) ∨ a ∈ idsOfL ts)
  | _, [], info, hinfo => by simp [rinfosL] at hinfo
  | anc, t :: ts, info, hinfo => by
    simp only [rinfosL, List.mem_append] at hinfo
    rcases hinfo with hmem | hmem
    · have h := rinfos_closed anc t info hmem
      refine ⟨fun pid pn pt hp => ?_, fun a ha => ?_⟩
      · rcases h.1 pid pn pt hp with hx | hx
        · exact Or.inl hx
        · right
          simp [idsOfL, hx]
      · rcases h.2 a ha with hx | hx
        · exact Or.inl hx
        · right
          simp [idsOfL, hx]
    · have h := rinfos_closedL anc ts info hmem
      refine ⟨fun pid pn pt hp => ?_, fun a ha => ?_⟩
      · rcases h.1 pid pn pt hp with hx | hx
        · exact Or.inl hx
        · right
          simp [idsOfL, hx]
      · rcases h.2 a ha with hx | hx
        · exact Or.inl hx
        · right
          simp [idsOfL, hx]

end

theorem updHeap_mono (h : Nat → List String) (cell : Nat) (w : List String)
    (c : Nat) (x : String) (hx : x ∈ h c) :
    x ∈ updHeap h cell (h cell ++ w) c := by
  by_cases hc : c = cell
  · subst hc
    simp [updHeap]
    exact Or.inl hx
  · simpa [updHeap, hc] using hx

theorem relExtendHeap_mono : ∀ (l : List Nat) (h : Nat → List String) (ptr : Nat → Nat)
    (cell c : Nat) (x : String), x ∈ h c → x ∈ relExtendHeap ptr cell l h c := by
  intro l
  induction l with
  | nil => intro h ptr cell c x hx; exact hx
  | cons a rest ih =>
    intro h ptr cell c x hx
    by_cases hg : h (ptr a) ≠ []
    · simp only [relExtendHeap, if_pos hg]
      exact ih _ ptr cell c x (updHeap_mono h cell _ c x hx)
    · simp only [relExtendHeap, if_neg hg]
      exact ih _ ptr cell c x hx

theorem relExtendHeap_frame : ∀ (l : List Nat) (h : Nat → List String) (ptr : Nat → Nat)
    (cell c : Nat), c ≠ cell → relExtendHeap ptr cell l h c = h c := by
  intro l
  induction l with
  | nil => intro h ptr cell c _; rfl
  | cons a rest ih =>
    intro h ptr cell c hc
    by_cases hg : h (ptr a) ≠ []
    · simp only [relExtendHeap, if_pos hg]
      rw [ih _ ptr cell c hc]
      simp [updHeap, hc]
    · simp only [relExtendHeap, if_neg hg]
      exact ih _ ptr cell c hc

theorem relExtendHeap_covers : ∀ (l : List Nat) (h : Nat → List String) (ptr : Nat → Nat)
    (cell : Nat) (a : Nat), a ∈ l → ∀ x ∈ h (ptr a),
    x ∈ relExtendHeap ptr cell l h cell := by
  intro l
  induction l with
  | nil => intro h ptr cell a ha; simp at ha
  | cons b rest ih =>
    intro h ptr cell a ha x hx
    rcases List.mem_cons.mp ha with rfl | ha'
    · have hg : h (ptr a) ≠ [] := List.ne_nil_of_mem hx
      simp only [relExtendHeap, if_pos hg]
      refine relExtendHeap_mono rest _ ptr cell cell x ?_
      simp [updHeap]
      exact Or.inr hx
    · by_cases hg : h (ptr b) ≠ []
      · simp only [relExtendHeap, if_pos hg]
        exact ih _ ptr cell a ha' x (updHeap_mono h cell _ (ptr a) x hx)
      · simp only [relExtendHeap, if_neg hg]
        exact ih _ ptr cell a ha' x hx

theorem relStep_ptr_other (st : RelSt) (info : RInfo) (j : Nat) (hj : j ≠ info.id) :
    (relStep st info).ptr j = st.ptr j := by
  cases hpar : info.parent with
  | none => simp [relStep, hpar]
  | some x =>
    obtain ⟨p1, p2, p3⟩ := x
    simp [relStep, hpar, updNat, hj]

theorem relStep_next (st : RelSt) (info : RInfo) :
    st.next ≤ (relStep st info).next := by
  cases hpar : info.parent with
  | none => simp [relStep, hpar]
  | some x =>
    obtain ⟨p1, p2, p3⟩ := x
    simp [relStep, hpar]

theorem relStep_target (st : RelSt) (info : RInfo) (p1 : Nat) (p2 p3 : String)
    (hpar : info.parent = some (p1, p2, p3)) :
    (relStep st info).ptr info.id = st.next ∧
    (relStep st info).next = st.next + 1 ∧
    (relStep st info).heap st.next =
      (relExtendHeap st.ptr (st.ptr info.id) info.ancestors
        (if p3 ≠ "select_multiple"
          then updHeap st.heap (st.ptr info.id)
            (st.heap (st.ptr info.id) ++ [neCheck p2])
          else st.heap) (st.ptr info.id)).dedup := by
  refine ⟨?_, ?_, ?_⟩ <;> simp [relStep, hpar, updNat, updHeap]

theorem relStep_heap_lo (st : RelSt) (info : RInfo) (c : Nat)
    (hc : c < st.next) (hcell : c ≠ st.ptr info.id) :
    (relStep st info).heap c = st.heap c := by
  cases hpar : info.parent with
  | none => simp [relStep, hpar]
  | some x =>
    obtain ⟨p1, p2, p3⟩ := x
    simp only [relStep, hpar]
    have hne : c ≠ st.next := by omega
    simp only [updHeap, if_neg hne]
    rw [relExtendHeap_frame _ _ _ _ _ hcell]
    by_cases hm : p3 ≠ "select_multiple"
    · simp only [if_pos hm, updHeap, if_neg hcell]
    · simp only [if_neg hm]

/-- Master invariant for the second loop: every node keeps its initial
conditions inside its current cell, and every pointer is below the
allocation frontier. -/
def RelInv (S : List Nat) (conds0 : Nat → List String) (st : RelSt) : Prop :=
  ∀ m ∈ S, (∀ c ∈ conds0 m, c ∈ st.heap (st.ptr m)) ∧ st.ptr m < st.next

theorem relStep_master (S : List Nat) (conds0 : Nat → List String) (st : RelSt)
    (info : RInfo) (hinv : RelInv S conds0 st) :
    RelInv S conds0 (relStep st info) := by
  cases hpar : info.parent with
  | none => simpa [relStep, hpar] using hinv
  | some x =>
    obtain ⟨p1, p2, p3⟩ := x
    intro m hm
    obtain ⟨hcont, hlt⟩ := hinv m hm
    obtain ⟨htp, htn, hth⟩ := relStep_target st info p1 p2 p3 hpar
    by_cases hmid : m = info.id
    · subst hmid
      constructor
      · intro c hc
        rw [htp, hth, List.mem_dedup]
        refine relExtendHeap_mono _ _ _ _ _ c ?_
        by_cases hm3 : p3 ≠ "select_multiple"
        · simp only [if_pos hm3]
          exact updHeap_mono st.heap _ _ _ c (hcont c hc)
        · simp only [if_neg hm3]
          exact hcont c hc
      · rw [htp, htn]
        omega
    · constructor
      · intro c hc
        have hptr : (relStep st info).ptr m = st.ptr m := relStep_ptr_other st info m hmid
        rw [hptr]
        have hheap : (relStep st info).heap (st.ptr m) =
            relExtendHeap st.ptr (st.ptr info.id) info.ancestors
              (if p3 ≠ "select_multiple"
                then updHeap st.heap (st.ptr info.id)
                  (st.heap (st.ptr info.id) ++ [neCheck p2])
                else st.heap) (st.ptr m) := by
          simp only [relStep, hpar]
          rw [updHeap, if_neg (by omega : st.ptr m ≠ st.next)]
        rw [hheap]
        refine relExtendHeap_mono _ _ _ _ _ c ?_
        by_cases hm3 : p3 ≠ "select_multiple"
        · simp only [if_pos hm3]
          exact updHeap_mono st.heap _ _ _ c (hcont c hc)
        · simp only [if_neg hm3]
          exact hcont c hc
      · rw [relStep_ptr_other st info m hmid]
        have := relStep_next st info
        omega

theorem relLoop2_cons (info : RInfo) (rest : List RInfo) (st : RelSt) :
    relLoop2 (info :: rest) st = relLoop2 rest (relStep st info) := rfl

theorem relLoop2_append : ∀ (l1 l2 : List RInfo) (st : RelSt),
    relLoop2 (l1 ++ l2) st = relLoop2 l2 (relLoop2 l1 st) := by
  intro l1
  induction l1 with
  | nil => intro l2 st; rfl
  | cons info rest ih => intro l2 st; simp only [List.cons_append, relLoop2_cons, ih]

theorem relLoop2_master (S : List Nat) (conds0 : Nat → List String) :
    ∀ (r : List RInfo) (st : RelSt),
    RelInv S conds0 st → RelInv S conds0 (relLoop2 r st) := by
  intro r
  induction r with
  | nil => intro st h; exact h
  | cons info rest ih =>
    intro st h
    exact ih _ (relStep_master S conds0 st info h)

theorem relLoop2_ptr_untouched : ∀ (r : List RInfo) (st : RelSt) (j : Nat),
    (∀ info ∈ r, info.id ≠ j) → (relLoop2 r st).ptr j = st.ptr j := by
  intro r
  induction r with
  | nil => intro st j _; rfl
  | cons info rest ih =>
    intro st j hj
    rw [relLoop2_cons, ih _ j (fun k hk => hj k (by simp [hk]))]
    exact relStep_ptr_other st info j (fun hh => hj info (by simp) hh.symm)

theorem relLoop2_next_mono : ∀ (r : List RInfo) (st : RelSt),
    st.next ≤ (relLoop2 r st).next := by
  intro r
  induction r with
  | nil => intro st; exact le_refl _
  | cons info rest ih =>
    intro st
    calc st.next ≤ (relStep st info).next := relStep_next st info
      _ ≤ (relLoop2 rest (relStep st info)).next := ih _

theorem relLoop2_heap_frozen (bound : Nat) : ∀ (r : List RInfo) (st : RelSt) (c : Nat),
    bound ≤ c → c < st.next → (∀ info ∈ r, st.ptr info.id < bound) →
    ((r.map (fun i => i.id)).Nodup) →
    (relLoop2 r st).heap c = st.heap c := by
  intro r
  induction r with
  | nil => intro st c _ _ _ _; rfl
  | cons info rest ih =>
    intro st c hlo hhi hr hnd
    simp only [List.map_cons, List.nodup_cons] at hnd
    rw [relLoop2_cons]
    have hstep : (relStep st info).heap c = st.heap c :=
      relStep_heap_lo st info c hhi (by
        have := hr info (by simp)
        omega)
    rw [← hstep] at *
    refine ih _ c hlo ?_ ?_ hnd.2
    · have := relStep_next st info
      omega
    · intro k hk
      rw [relStep_ptr_other st info k.id (by
        intro hh
        exact hnd.1 (by rw [← hh]; exact List.mem_map.mpr ⟨k, hk, rfl⟩))]
      exact hr k (by simp [hk])

theorem relLoop1_heap : ∀ (r : List RInfo) (st : RelSt),
    (relLoop1 r st).heap = st.heap := by
  intro r
  induction r with
  | nil => intro st; rfl
  | cons info rest ih =>
    intro st
    cases hpar : info.parent with
    | none => simp only [relLoop1, hpar]; exact ih _
    | some x =>
      obtain ⟨p1, p2, p3⟩ := x
      simp only [relLoop1, hpar]
      by_cases hg : st.heap (st.ptr info.id) = []
      · simp only [if_pos hg]; exact ih _
      · simp only [if_neg hg]; exact ih _

theorem relLoop1_next : ∀ (r : List RInfo) (st : RelSt),
    (relLoop1 r st).next = st.next := by
  intro r
  induction r with
  | nil => intro st; rfl
  | cons info rest ih =>
    intro st
    cases hpar : info.parent with
    | none => simp only [relLoop1, hpar]; exact ih _
    | some x =>
      obtain ⟨p1, p2, p3⟩ := x
      simp only [relLoop1, hpar]
      by_cases hg : st.heap (st.ptr info.id) = []
      · simp only [if_pos hg]; exact ih _
      · simp only [if_neg hg]; exact ih _

theorem relLoop1_master (S : List Nat) (conds0 : Nat → List String) (next0 : Nat) :
    ∀ (r : List RInfo) (st : RelSt),
    (∀ info ∈ r, ∀ p1 p2 p3, info.parent = some (p1, p2, p3) → p1 ∈ S) →
    st.heap = conds0 →
    (∀ m ∈ S, (∀ c ∈ conds0 m, c ∈ st.heap (st.ptr m)) ∧ st.ptr m < next0) →
    (∀ m ∈ S, (∀ c ∈ conds0 m, c ∈ (relLoop1 r st).heap ((relLoop1 r st).ptr m)) ∧
      (relLoop1 r st).ptr m < next0) := by
  intro r
  induction r with
  | nil => intro st _ _ h; exact h
  | cons info rest ih =>
    intro st hr hheap hmaster
    cases hpar : info.parent with
    | none =>
      simp only [relLoop1, hpar]
      exact ih st (fun k hk => hr k (by simp [hk])) hheap hmaster
    | some x =>
      obtain ⟨p1, p2, p3⟩ := x
      simp only [relLoop1, hpar]
      by_cases hg : st.heap (st.ptr info.id) = []
      · simp only [if_pos hg]
        refine ih _ (fun k hk => hr k (by simp [hk])) hheap ?_
        intro m hm
        obtain ⟨hcont, hlt⟩ := hmaster m hm
        by_cases hmid : m = info.id
        · subst hmid
          constructor
          · intro c hc
            exact absurd (hg ▸ hcont c hc) (List.not_mem_nil c)
          · simp only [updNat, if_pos rfl]
            exact (hmaster p1 (hr info (by simp) p1 p2 p3 hpar)).2
        · simpa [updNat, hmid] using ⟨hcont, hlt⟩
      · simp only [if_neg hg]
        exact ih _ (fun k hk => hr k (by simp [hk])) hheap hmaster

/-- Claim C4: after `enforce_relevance`, every non-root node carries (a) every
condition it held before the pass, (b) every condition any of its ancestors
held before the pass, and (c) unless the immediate parent question is a
multi-select, the non-emptiness check on the parent answer; and the final
conjunct list holds no duplicates. Hypotheses: node ids are distinct and the
fresh-cell frontier lies above all ids (the construction invariant of the
object graph). -/
theorem C4_enforce_relevance (t : RTree) (conds0 : Nat → List String) (next0 : Nat)
    (hnd : (idsOf t).Nodup)
    (hbound : ∀ i ∈ idsOf t, i < next0) :
    ∀ info ∈ rinfos [] t, ∀ pid pn pt, info.parent = some (pid, pn, pt) →
      (∀ c ∈ conds0 info.id, c ∈ relConds (enforce_relevance t conds0 next0) info.id) ∧
      (∀ a ∈ info.ancestors, ∀ c ∈ conds0 a,
        c ∈ relConds (enforce_relevance t conds0 next0) info.id) ∧
      (pt ≠ "select_multiple" →
        neCheck pn ∈ relConds (enforce_relevance t conds0 next0) info.id) ∧
      (relConds (enforce_relevance t conds0 next0) info.id).Nodup := by
  intro info hinfo pid pn pt hpar
  have hmapid : (rinfos [] t).map (fun i => i.id) = idsOf t := rinfos_map_id [] t
  have hndinf : ((rinfos [] t).map (fun i => i.id)).Nodup := by rw [hmapid]; exact hnd
  have hSmem : ∀ j ∈ rinfos [] t, j.id ∈ idsOf t := fun j hj => by
    rw [← hmapid]; exact List.mem_map.mpr ⟨j, hj, rfl⟩
  have hSpar : ∀ j ∈ rinfos [] t, ∀ q1 q2 q3,
      j.parent = some (q1, q2, q3) → q1 ∈ idsOf t := by
    intro j hj q1 q2 q3 hq
    rcases (rinfos_closed [] t j hj).1 q1 q2 q3 hq with hx | hx
    · simp at hx
    · exact hx
  have hSanc : ∀ j ∈ rinfos [] t, ∀ a ∈ j.ancestors, a ∈ idsOf t := by
    intro j hj a ha
    rcases (rinfos_closed [] t j hj).2 a ha with hx | hx
    · simp at hx
    · exact hx
  obtain ⟨pre, post, hsplit⟩ := List.append_of_mem hinfo
  have hEq : enforce_relevance t conds0 next0 =
      relLoop2 post (relStep (relLoop2 pre
        (relLoop1 (pre ++ info :: post) ⟨fun i => i, conds0, next0⟩)) info) := by
    simp only [enforce_relevance]
    rw [hsplit, relLoop2_append, relLoop2_cons]
  set stA := relLoop1 (pre ++ info :: post)
    (⟨fun i => i, conds0, next0⟩ : RelSt) with hstAdef
  set st1 := relLoop2 pre stA with hst1def
  have hA_heap : stA.heap = conds0 := relLoop1_heap _ _
  have hA_next : stA.next = next0 := relLoop1_next _ _
  have hA_master : ∀ m ∈ idsOf t,
      (∀ c ∈ conds0 m, c ∈ stA.heap (stA.ptr m)) ∧ stA.ptr m < next0 := by
    refine relLoop1_master (idsOf t) conds0 next0 _ _ ?_ rfl ?_
    · intro k hk q1 q2 q3 hq
      exact hSpar k (by rw [hsplit]; exact hk) q1 q2 q3 hq
    · intro m hm
      exact ⟨fun c hc => hc, hbound m hm⟩
  have hA_inv : RelInv (idsOf t) conds0 stA := by
    intro m hm
    obtain ⟨h1, h2⟩ := hA_master m hm
    refine ⟨h1, ?_⟩
    rw [hA_next]
    exact h2
  have h1_inv : RelInv (idsOf t) conds0 st1 := relLoop2_master _ _ pre stA hA_inv
  have hnds : ((pre ++ info :: post).map (fun i => i.id)).Nodup := by
    rw [← hsplit]
    exact hndinf
  rw [List.map_append, List.nodup_append] at hnds
  obtain ⟨hndpre, hndcons, hdisj⟩ := hnds
  rw [List.map_cons, List.nodup_cons] at hndcons
  obtain ⟨hnotin, hndpost⟩ := hndcons
  have hpre_ne_info : ∀ k ∈ pre, k.id ≠ info.id := by
    intro k hk hh
    exact hdisj (List.mem_map.mpr ⟨k, hk, rfl⟩) (by rw [List.map_cons]; simp [hh])
  have hpre_ne_post : ∀ j ∈ post, ∀ k ∈ pre, k.id ≠ j.id := by
    intro j hj k hk hh
    refine hdisj (List.mem_map.mpr ⟨k, hk, rfl⟩) ?_
    rw [List.map_cons]
    right
    rw [hh]
    exact List.mem_map.mpr ⟨j, hj, rfl⟩
  have hpost_ne_info : ∀ j ∈ post, j.id ≠ info.id := by
    intro j hj hh
    exact hnotin (by rw [← hh]; exact List.mem_map.mpr ⟨j, hj, rfl⟩)
  have hptr1 : st1.ptr info.id = stA.ptr info.id :=
    relLoop2_ptr_untouched pre stA info.id (fun k hk => hpre_ne_info k hk)
  have hptrpost : ∀ j ∈ post, st1.ptr j.id = stA.ptr j.id := fun j hj =>
    relLoop2_ptr_untouched pre stA j.id (fun k hk => hpre_ne_post j hj k hk)
  have hnext1 : next0 ≤ st1.next := by
    rw [← hA_next]
    exact relLoop2_next_mono pre stA
  obtain ⟨htp, htn, hth⟩ := relStep_target st1 info pid pn pt hpar
  have hfrozen : (relLoop2 post (relStep st1 info)).heap st1.next =
      (relStep st1 info).heap st1.next := by
    refine relLoop2_heap_frozen next0 post (relStep st1 info) st1.next hnext1
      (by rw [htn]; omega) ?_ hndpost
    intro k hk
    rw [relStep_ptr_other st1 info k.id (hpost_ne_info k hk), hptrpost k hk]
    exact (hA_master k.id (hSmem k (by rw [hsplit]; simp [hk]))).2
  have hptrfin : (relLoop2 post (relStep st1 info)).ptr info.id = st1.next := by
    rw [relLoop2_ptr_untouched post (relStep st1 info) info.id
      (fun k hk => hpost_ne_info k hk), htp]
  have hfinal : relConds (enforce_relevance t conds0 next0) info.id =
      (relExtendHeap st1.ptr (st1.ptr info.id) info.ancestors
        (if pt ≠ "select_multiple"
          then updHeap st1.heap (st1.ptr info.id)
            (st1.heap (st1.ptr info.id) ++ [neCheck pn])
          else st1.heap) (st1.ptr info.id)).dedup := by
    rw [relConds, hEq, hptrfin, hfrozen, hth]
  have hinfoS : info.id ∈ idsOf t := hSmem info hinfo
  refine ⟨?_, ?_, ?_, ?_⟩
  · intro c hc
    rw [hfinal, List.mem_dedup]
    refine relExtendHeap_mono _ _ _ _ _ c ?_
    have hbase : c ∈ st1.heap (st1.ptr info.id) := (h1_inv info.id hinfoS).1 c hc
    by_cases hm3 : pt ≠ "select_multiple"
    · simp only [if_pos hm3]
      exact updHeap_mono _ _ _ _ c hbase
    · simp only [if_neg hm3]
      exact hbase
  · intro a ha c hc
    rw [hfinal, List.mem_dedup]
    have haS : a ∈ idsOf t := hSanc info hinfo a ha
    have hbase : c ∈ st1.heap (st1.ptr a) := (h1_inv a haS).1 c hc
    refine relExtendHeap_covers _ _ _ _ a ha c ?_
    by_cases hm3 : pt ≠ "select_multiple"
    · simp only [if_pos hm3]
      exact updHeap_mono _ _ _ _ c hbase
    · simp only [if_neg hm3]
      exact hbase
  · intro hm3
    rw [hfinal, List.mem_dedup]
    refine relExtendHeap_mono _ _ _ _ _ _ ?_
    simp only [if_pos hm3, updHeap, if_pos rfl]
    simp
  · rw [hfinal]
    exact List.nodup_dedup _

/-- Concrete two-node tree for the C4 witness. -/
def exRTree : RTree := RTree.mk 0 "r" "integer" [RTree.mk 1 "a" "integer" []]

/-- Initial conditions for the C4 witness: node 1 holds one conjunct. -/
def exConds : Nat → List String := fun i => if i = 1 then ["c1"] else []

/-- Witness for C4: on the two-node tree, the non-root node 1 ends up with
its own conjunct, all (empty) root conjuncts, the parent non-emptiness check,
and no duplicates. -/
theorem C4_enforce_relevance_witness :
    (∀ c ∈ exConds 1, c ∈ relConds (enforce_relevance exRTree exConds 2) 1) ∧
    (∀ a ∈ [0], ∀ c ∈ exConds a, c ∈ relConds (enforce_relevance exRTree exConds 2) 1) ∧
    ("integer" ≠ "select_multiple" →
      neCheck "r" ∈ relConds (enforce_relevance exRTree exConds 2) 1) ∧
    (relConds (enforce_relevance exRTree exConds 2) 1).Nodup :=
  C4_enforce_relevance exRTree exConds 2 (by decide) (by decide)
    ⟨1, some (0, "r", "integer"), [0]⟩
    (by decide) 0 "r" "integer" rfl

/-! ## exit_deadends lemmas -/

theorem edGoList_ok (ccfg : List (String × List CCRow))
    (sc : List (String × List (String × String))) (stc : List (String × String)) :
    ∀ (ts : List TNode) (anc : List (String × String)) (k : Nat)
      (ts2 : List TNode) (k2 : Nat),
    edGoList ccfg sc stc anc k ts = .ok (ts2, k2) →
    ts2.length = ts.length ∧
    ∀ (i : Nat) (ti : TNode), ts[i]? = some ti →
      ∃ k1 r, edGo ccfg sc stc anc k1 ti = .ok r ∧ ts2[i]? = some r.1 := by
  intro ts
  induction ts with
  | nil =>
    intro anc k ts2 k2 h
    simp only [edGoList] at h
    cases h
    refine ⟨rfl, ?_⟩
    intro i ti hti
    simp at hti
  | cons t ts ih =>
    intro anc k ts2 k2 h
    simp only [edGoList] at h
    split at h
    · cases h
    · rename_i t2 k1 he
      split at h
      · cases h
      · rename_i ts2x k2x hl
        cases h
        obtain ⟨hlen, hidx⟩ := ih anc k1 _ _ hl
        refine ⟨by simp [hlen], ?_⟩
        intro i ti hti
        cases i with
        | zero =>
          simp only [List.getElem?_cons_zero] at hti
          cases hti
          exact ⟨k, (t2, k1), he, by simp⟩
        | succ j =>
          simp only [List.getElem?_cons_succ] at hti ⊢
          exact hidx j ti hti

theorem edGo_deadend_at (ccfg : List (String × List CCRow))
    (sc : List (String × List (String × String))) (stc : List (String × String)) :
    ∀ (p : List Nat) (t : TNode) (anc : List (String × String)) (k : Nat)
      (t2 : TNode) (k2 : Nat),
    edGo ccfg sc stc anc k t = .ok (t2, k2) →
    ∀ n, getAt t p = some n →
    ∀ ct np, edDeadendData n = some (ct, np) →
    ∃ n2, getAt t2 p = some n2 ∧
      n2.name = n.name ∧ n2.uid = n.uid ∧ n2.question = n.question ∧
      n2.cart = n.cart ∧ n2.cart_rule = n.cart_rule ∧
      n2.children.length = n.children.length + 1 ∧
      ∃ leaf conds expr anc1 rows,
        n2.children.getLast? = some leaf ∧
        (∃ qu, n.question = some qu ∧ qu.conditions = some conds) ∧
        alGetS ccfg n.name = some rows ∧
        update_xpath_variables ((n.name, n.uid) :: anc1)
          (deadendExpr n.name (deadendChoicesXlsform rows np)) = .ok expr ∧
        leaf.name = "segment" ∧
        (∃ lq, leaf.question = some lq ∧
          lq.type = some "calculate" ∧ lq.required = true ∧
          lq.calculation = some (squote ++ renameSegment sc ct.strata ct.cluster ++ squote) ∧
          lq.conditions = some (conds ++ [expr])) ∧
        (∃ note nq, leaf.children = [note] ∧ note.name = "segment_note" ∧
          note.question = some nq ∧ nq.type = some "note" ∧
          nq.conditions = some (conds ++ [expr])) := by
  intro p
  induction p with
  | nil =>
    intro t anc k t2 k2 h n hget ct np hdd
    obtain ⟨name, uid, cart, rule, q, kids⟩ := t
    simp only [getAt] at hget
    cases hget
    rcases q with _ | qu
    · simp only [edGo, hdd] at h
      cases h
    · rcases hcq : qu.conditions with _ | conds
      · simp only [edGo, hdd, hcq] at h
        cases h
      · rcases hrows : alGetS ccfg name with _ | rows
        · simp only [edGo, hdd, hcq, hrows] at h
          cases h
        · by_cases hlen : (deadendChoicesXlsform rows np).length = np.length
          · rcases hupd : update_xpath_variables ((name, uid) :: anc)
                (deadendExpr name (deadendChoicesXlsform rows np)) with e | expr
            · simp only [edGo, hdd, hcq, hrows, if_pos hlen, hupd] at h
              cases h
            · rcases hkl : edGoList ccfg sc stc ((name, uid) :: anc) (k + 2) kids
                  with e | r2
              · simp only [edGo, hdd, hcq, hrows, if_pos hlen, hupd, hkl] at h
                cases h
              · obtain ⟨kids2, k2x⟩ := r2
                simp only [edGo, hdd, hcq, hrows, if_pos hlen, hupd, hkl] at h
                cases h
                obtain ⟨hklen, _⟩ := edGoList_ok ccfg sc stc kids _ _ _ _ hkl
                refine ⟨_, rfl, rfl, rfl, rfl, rfl, rfl, ?_, ?_⟩
                · simp only [TNode.children, List.length_append, List.length_cons,
                    List.length_nil, hklen]
                · exact ⟨_, conds, expr, anc, rows, List.getLast?_concat _,
                    ⟨qu, rfl, hcq⟩, hrows, hupd,
                    rfl, ⟨_, rfl, rfl, rfl, rfl, rfl⟩, ⟨_, _, rfl, rfl, rfl, rfl, rfl⟩⟩
          · simp only [edGo, hdd, hcq, hrows, if_neg hlen] at h
            cases h
  | cons i rest ih =>
    intro t anc k t2 k2 h n hget ct np hdd
    obtain ⟨name, uid, cart, rule, q, kids⟩ := t
    simp only [getAt, TNode.children] at hget
    rcases hc : kids[i]? with _ | c
    · rw [hc] at hget; cases hget
    · rw [hc] at hget
      have hilt : i < kids.length := (List.getElem?_eq_some_iff.mp hc).1
      rcases hddt : edDeadendData (TNode.mk name uid cart rule q kids) with _ | ctnp
      · -- this node does not qualify: children mapped in place
        rcases hkl : edGoList ccfg sc stc ((name, uid) :: anc) k kids with e | r2
        · simp only [edGo, hddt, hkl] at h
          cases h
        · obtain ⟨kids2, k2x⟩ := r2
          simp only [edGo, hddt, hkl] at h
          cases h
          obtain ⟨hklen, hidx⟩ := edGoList_ok ccfg sc stc kids _ _ _ _ hkl
          obtain ⟨k1, r, hr, hr2⟩ := hidx i c hc
          obtain ⟨n2, hn2, hrest⟩ := ih c ((name, uid) :: anc) k1 r.1 r.2
            (by obtain ⟨a, b⟩ := r; exact hr) n hget ct np hdd
          refine ⟨n2, ?_, hrest⟩
          simp only [getAt, TNode.children, hr2, hn2]
      · -- this node qualifies: the appended leaf sits after index i
        obtain ⟨cti, npi⟩ := ctnp
        rcases q with _ | qu
        · simp only [edGo, hddt] at h
          cases h
        · rcases hcq : qu.conditions with _ | conds
          · simp only [edGo, hddt, hcq] at h
            cases h
          · rcases hrows : alGetS ccfg name with _ | rows
            · simp only [edGo, hddt, hcq, hrows] at h
              cases h
            · by_cases hlen : (deadendChoicesXlsform rows npi).length = npi.length
              · rcases hupd : update_xpath_variables ((name, uid) :: anc)
                    (deadendExpr name (deadendChoicesXlsform rows npi)) with e | expr
                · simp only [edGo, hddt, hcq, hrows, if_pos hlen, hupd] at h
                  cases h
                · rcases hkl : edGoList ccfg sc stc ((name, uid) :: anc) (k + 2) kids
                      with e | r2
                  · simp only [edGo, hddt, hcq, hrows, if_pos hlen, hupd, hkl] at h
                    cases h
                  · obtain ⟨kids2, k2x⟩ := r2
                    simp only [edGo, hddt, hcq, hrows, if_pos hlen, hupd, hkl] at h
                    cases h
                    obtain ⟨hklen, hidx⟩ := edGoList_ok ccfg sc stc kids _ _ _ _ hkl
                    obtain ⟨k1, r, hr, hr2⟩ := hidx i c hc
                    obtain ⟨n2, hn2, hrest⟩ := ih c ((name, uid) :: anc) k1 r.1 r.2
                      (by obtain ⟨a, b⟩ := r; exact hr) n hget ct np hdd
                    refine ⟨n2, ?_, hrest⟩
                    have hlt2 : i < kids2.length := by rw [hklen]; exact hilt
                    simp only [getAt, TNode.children, List.getElem?_append_left hlt2,
                      hr2, hn2]
              · simp only [edGo, hddt, hcq, hrows, if_neg hlen] at h
                cases h

/-- Claim C7 (amended): whenever `exit_deadends` succeeds, every node that
carries an edge rule from its parent and whose own categorical split has a
non-empty excluded set receives exactly one extra child, appended last: a
synthetic `segment` leaf whose question is a required `calculate` holding the
(possibly renamed) most-probable class literal and whose conditions are the
node conditions plus the resolved expression matching exactly the excluded
choice names, with a single accompanying note child carrying the same
conditions. (The unamended claim, for every node with such a split, fails on
the root, which has no edge rule and is skipped: see the counterexample.) -/
theorem C7_exit_deadends_amended (ccfg : List (String × List CCRow))
    (sc : List (String × List (String × String))) (stc : List (String × String))
    (t : TNode) (k0 : Nat) (p : List Nat) (n : TNode)
    (hok : ∃ r, edGo ccfg sc stc [] k0 t = .ok r)
    (hget : getAt t p = some n)
    (ct : CARTNode) (np : List String) (hdd : edDeadendData n = some (ct, np)) :
    ∃ t2 k2, edGo ccfg sc stc [] k0 t = .ok (t2, k2) ∧
      exit_deadends ccfg sc stc t k0 = .ok t2 ∧
      ∃ n2, getAt t2 p = some n2 ∧
        n2.name = n.name ∧ n2.uid = n.uid ∧ n2.question = n.question ∧
        n2.cart = n.cart ∧ n2.cart_rule = n.cart_rule ∧
        n2.children.length = n.children.length + 1 ∧
        ∃ leaf conds expr anc1 rows,
          n2.children.getLast? = some leaf ∧
          (∃ qu, n.question = some qu ∧ qu.conditions = some conds) ∧
          alGetS ccfg n.name = some rows ∧
          update_xpath_variables ((n.name, n.uid) :: anc1)
            (deadendExpr n.name (deadendChoicesXlsform rows np)) = .ok expr ∧
          leaf.name = "segment" ∧
          (∃ lq, leaf.question = some lq ∧
            lq.type = some "calculate" ∧ lq.required = true ∧
            lq.calculation = some (squote ++ renameSegment sc ct.strata ct.cluster ++ squote) ∧
            lq.conditions = some (conds ++ [expr])) ∧
          (∃ note nq, leaf.children = [note] ∧ note.name = "segment_note" ∧
            note.question = some nq ∧ nq.type = some "note" ∧
            nq.conditions = some (conds ++ [expr])) := by
  obtain ⟨⟨t2, k2⟩, hr⟩ := hok
  refine ⟨t2, k2, hr, ?_, edGo_deadend_at ccfg sc stc p t [] k0 t2 k2 hr n hget ct np hdd⟩
  simp [exit_deadends, hr, Except.map]

/-- Counterexample for C7 as stated: the root of this tree carries a
categorical split whose excluded set is the non-empty `[b]`, yet
`exit_deadends` returns the tree unchanged (no synthetic leaf is attached),
because the root has no edge rule and the pass skips every node without one
(`if not node.cart_rule: continue`). -/
theorem C7_exit_deadends_counterexample :
    (∃ ct lr np, exC7root.cart = some ct ∧ ct.left = some lr ∧
      lr.not_present = some np ∧ np ≠ []) ∧
    exit_deadends exC7ccfg [] [] exC7root 0 = .ok exC7root ∧
    exC7root.children = [] :=
  ⟨⟨exC7cart, _, ["b"], rfl, rfl, rfl, by decide⟩, rfl, rfl⟩

/-- Witness for C7 on a concrete two-node tree whose child node carries the
dead-end split. -/
theorem C7_exit_deadends_amended_witness :
    ∃ t2 k2, edGo exC7ccfg [] [] [] 0 exC7tree = .ok (t2, k2) ∧
      exit_deadends exC7ccfg [] [] exC7tree 0 = .ok t2 ∧
      ∃ n2, getAt t2 [0] = some n2 ∧
        n2.name = exC7n.name ∧ n2.uid = exC7n.uid ∧ n2.question = exC7n.question ∧
        n2.cart = exC7n.cart ∧ n2.cart_rule = exC7n.cart_rule ∧
        n2.children.length = exC7n.children.length + 1 ∧
        ∃ leaf conds expr anc1 rows,
          n2.children.getLast? = some leaf ∧
          (∃ qu, exC7n.question = some qu ∧ qu.conditions = some conds) ∧
          alGetS exC7ccfg exC7n.name = some rows ∧
          update_xpath_variables ((exC7n.name, exC7n.uid) :: anc1)
            (deadendExpr exC7n.name (deadendChoicesXlsform rows ["b"])) = .ok expr ∧
          leaf.name = "segment" ∧
          (∃ lq, leaf.question = some lq ∧
            lq.type = some "calculate" ∧ lq.required = true ∧
            lq.calculation =
              some (squote ++ renameSegment [] exC7cart.strata exC7cart.cluster ++ squote) ∧
            lq.conditions = some (conds ++ [expr])) ∧
          (∃ note nq, leaf.children = [note] ∧ note.name = "segment_note" ∧
            note.question = some nq ∧ nq.type = some "note" ∧
            nq.conditions = some (conds ++ [expr])) :=
  C7_exit_deadends_amended exC7ccfg [] [] exC7tree 0 [0] exC7n
    ⟨_, rfl⟩ rfl exC7cart ["b"] rfl

/-- C9: the option-application pass does NOT apply the `hide` transform. On a
tree whose child node `q1` matches a configured `hide` directive,
`apply_options` returns the tree (and uid supply) completely unchanged,
because its dispatch has branches only for `calculate` and `split`; yet
`apply_hide_option` — which `apply_options` never invokes — would transform
that very node exactly as the claim describes: it appends the resolved extra
relevance conjunct to the node and strips the conjunct mentioning `q1` from
its descendant, as witnessed by the direct call in the last conjunct. -/
theorem C9_apply_options_ignores_hide :
    exC9hideOpt.option = "hide" ∧
    getAt exC9tree [0] = some exC9q1sub ∧
    exC9q1sub.name = exC9hideOpt.src_question ∧
    exC9q1sub.question.map (fun q => q.conditions) = some (some [exC9cond1]) ∧
    exC9q1sub.children.map (fun c => c.question.map (fun q => q.conditions)) =
      [some (some ["$\x7bq1_u0\x7d != \x27\x27"])] ∧
    apply_options [] [] [exC9hideOpt] exC9tree 5 = .ok (exC9tree, 5) ∧
    ∃ t2, apply_hide_option exC9hideOpt [("r", "r_u0")] exC9q1sub = .ok t2 ∧
      t2.question.map (fun q => q.conditions) =
        some (some [exC9cond1, exC9relResolved]) ∧
      t2.children.map (fun c => c.question.map (fun q => q.conditions)) =
        [some (some [])] := by
  refine ⟨rfl, rfl, rfl, rfl, rfl, rfl, _, rfl, rfl, rfl⟩

end Pathways
